import Mathlib

/-!
# Verification of the chisel physical-operator library

A shallow embedding of `src/deriva/chisel/operators/base.py` (the core
physical operators of the chisel schema-evolution engine), together with
theorems settling the frozen claims about it.

Modelling conventions:
* Python dictionaries (rows, schema documents, rename maps) are modelled as
  association lists `List (κ × α)`; `dictSet` replaces in place or appends,
  matching CPython's insertion-ordered dicts.
* Python `float` similarity scores are modelled as `ℚ` (only order and
  equality with the literals `0.0` and `1.0` are used by the code).
* Python truthiness (`if not candidate['member_of']`, `if best_match_row`)
  is modelled explicitly via truthiness predicates where it matters.
* Exceptions (KeyError on a missing row attribute, TypeError, ValueError)
  are modelled with `Option`/`Except`.
-/

namespace Chisel

/-! ## Python string slicing and `_make_constraint_name` (base.py lines 20-23) -/

/-- Python's `l[:k]` for a (character) list: a nonnegative bound takes a
prefix, a negative bound drops `-k` elements from the end (empty result when
`-k` exceeds the length). -/
def pySliceTo (l : List Char) (k : Int) : List Char :=
  if 0 ≤ k then l.take k.toNat else l.take (l.length - (-k).toNat)

/-- `_make_constraint_name(tname, *cnames, suffix='')`:
`constraint_name = f'{tname}_' + '_'.join(cnames)` followed by
`constraint_name[:63 - len(suffix)] + f'_{suffix}'`. -/
def make_constraint_name (tname : String) (cnames : List String) (suffix : String) : String :=
  let constraint_name := (tname ++ "_" ++ String.intercalate "_" cnames).data
  String.mk (pySliceTo constraint_name (63 - (suffix.length : Int)) ++ ('_' :: suffix.data))

/-- The `'{%s}' % __tname_key__` placeholder used for not-yet-named computed
relations (base.py lines 16-18). -/
def tnamePlaceholder : String := "{__computed_relation__}"

/-! ## Association-list model of Python dicts -/

/-- First-match lookup, `d[k]` / `d.get(k)`. -/
def dictGet {κ α : Type} [DecidableEq κ] : List (κ × α) → κ → Option α
  | [], _ => none
  | p :: d, k => if p.1 = k then some p.2 else dictGet d k

/-- `d[k] = v`: replace the value in place if the key is present (keeping its
position, as CPython dicts do), otherwise append the new pair at the end. -/
def dictSet {κ α : Type} [DecidableEq κ] : List (κ × α) → κ → α → List (κ × α)
  | [], k, v => [(k, v)]
  | p :: d, k, v => if p.1 = k then (k, v) :: d else p :: dictSet d k v

/-- `del d[k]` (no-op when the key is absent; callers guard with `in`).
Python dicts hold each key once; removing every matching entry of the
association list is the same operation. -/
def dictDel {κ α : Type} [DecidableEq κ] : List (κ × α) → κ → List (κ × α)
  | [], _ => []
  | p :: d, k => if p.1 = k then dictDel d k else p :: dictDel d k

/-- `d.update(other)`: set every pair of `other` into `d`, in order. -/
def dictUpdate {κ α : Type} [DecidableEq κ] (d other : List (κ × α)) : List (κ × α) :=
  other.foldl (fun acc p => dictSet acc p.1 p.2) d

/-- The ordered key list of a dict. -/
def dictKeys {κ α : Type} (d : List (κ × α)) : List κ := d.map Prod.fst

/-! ## `PhysicalOperator._rename_row_attributes` (base.py lines 56-76)

`renames` maps new attribute names to old ones.  The Python code copies the
row, then for each pair sets `new_row[new] = row[old]` (a `KeyError` — here
`none` — if `old` is missing) and deletes `old` from the partial result when
still present.  `always_copy` only controls object identity, which has no
counterpart in a value model; it is kept as an (inert) argument. -/

/-- One iteration of the rename loop. -/
def renameStep {α : Type} (row : List (String × α)) (nr : List (String × α))
    (p : String × String) : Option (List (String × α)) :=
  (dictGet row p.2).map (fun v => dictDel (dictSet nr p.1 v) p.2)

/-- `_rename_row_attributes(row, renames, always_copy)`. -/
def rename_row {α : Type} (row : List (String × α)) (renames : List (String × String))
    (alwaysCopy : Bool) : Option (List (String × α)) :=
  if renames = [] then some row
  else renames.foldlM (renameStep row) row

/-! ## Schema descriptions

`RelationDescription` documents.  Fields not inspected by the operators under
verification (column type/default/comment, key/fkey referenced table and
policies, acls/annotations) are bundled into opaque `rest`/`meta` payloads of
parameter types, so that "unchanged" is expressible without restating their
structure. -/

/-- A column definition: its `name` plus everything else (`rest`). -/
structure ColumnDef (γ : Type) where
  name : String
  rest : γ
deriving DecidableEq, Repr

/-- A key definition: constraint `names` (each a `[schema, name]` pair),
`unique_columns`, and the remaining fields. -/
structure KeyDef (κ : Type) where
  names : List (String × String)
  unique_columns : List String
  rest : κ
deriving DecidableEq, Repr

/-- A foreign-key definition: constraint `names`, the referring
`foreign_key_columns` (each Python entry `{'column_name': c}` modelled by the
name `c`), and the remaining fields (referenced schema/table/columns, update
policy, ...). -/
structure FKeyDef (φ : Type) where
  names : List (String × String)
  foreign_key_columns : List String
  rest : φ
deriving DecidableEq, Repr

/-- A `RelationDescription` document.  `schema_name` is `none` when the key is
absent from the dict (e.g. fresh output of `Table.define`). -/
structure Desc (γ κ φ μ : Type) where
  table_name : String
  schema_name : Option String
  column_definitions : List (ColumnDef γ)
  keys : List (KeyDef κ)
  foreign_keys : List (FKeyDef φ)
  comment : String
  meta : μ
deriving DecidableEq, Repr

/-- The ordered column-name list of a description's columns. -/
def colNames {γ : Type} (cols : List (ColumnDef γ)) : List String :=
  cols.map ColumnDef.name

/-- Modelled from the spec: `deriva.core.ermrest_model.Table.define` (the
external catalog layer, outside `src/`) with `provide_system=False` packages
the given pieces into a fresh relation-description document verbatim — no
system columns or keys are added and no `schema_name` entry is present.
`meta` stands for the `acls`/`acl_bindings`/`annotations` arguments. -/
def Table_define {γ κ φ μ : Type} (tname : String) (cols : List (ColumnDef γ))
    (keys : List (KeyDef κ)) (fkeys : List (FKeyDef φ)) (comment : String) (meta : μ) :
    Desc γ κ φ μ :=
  ⟨tname, none, cols, keys, fkeys, comment, meta⟩

/-! ## `Metadata` (base.py lines 102-109) and the description fallback
(lines 39-50) -/

/-- The `PhysicalOperator.description` property: the operator's own
`_description` when it has one, else the child's description, else `None`. -/
def opDescFallback {D : Type} (own : Option D) (childDesc : Option D) : Option D :=
  match own with
  | some d => some d
  | none => childDesc

/-- `Metadata.description`: the operator stores the constructor argument as
its `_description`, so the fallback returns it. -/
def metadataDescription {D : Type} (d : D) : Option D :=
  opDescFallback (some d) none

/-- `Metadata.__iter__` raises `NotImplementedError` unconditionally. -/
def metadataRows (ρ : Type) : Except String (List ρ) :=
  .error "The Metadata operator cannot be iterated."

/-! ## `Assign` / `Create` / `Alter` / `Drop` (base.py lines 128-175)

`Create`, `Alter` and `Drop` delegate their whole description computation and
iteration to `Assign.__init__` / `Assign.__iter__` via `super()`, so the
definitions below cover all four marker operators. -/

/-- `Assign._assign_constraint_name`: when the constraint has at least one
name, replace the name list with the single finalized name
`[schema_name, names[0][1].replace(placeholder, table_name)]`. -/
def finalizeConstraintName (schema_name table_name : String)
    (names : List (String × String)) : List (String × String) :=
  match names with
  | [] => []
  | cn :: _ => [(schema_name, cn.2.replace tnamePlaceholder table_name)]

/-- `Assign.__init__`: copy the child's description, stamp the destination
`schema_name`/`table_name`, and finalize every key and foreign-key constraint
name. -/
def assignDesc {γ κ φ μ : Type} (child : Desc γ κ φ μ) (schema_name table_name : String) :
    Desc γ κ φ μ :=
  { child with
    schema_name := some schema_name
    table_name := table_name
    keys := child.keys.map (fun kd =>
      { kd with names := finalizeConstraintName schema_name table_name kd.names })
    foreign_keys := child.foreign_keys.map (fun fk =>
      { fk with names := finalizeConstraintName schema_name table_name fk.names }) }

/-- `Assign.__iter__` returns `iter(self._child)`: the child's rows verbatim. -/
def assignRows {ρ : Type} (childRows : List ρ) : List ρ := childRows

/-! ## `Unnest` (base.py lines 537-564), description side

`Unnest.__init__` rebuilds the description with `Table.define`, passing the
child's `column_definitions` unchanged, *no* `key_defs` at all, and the
child's `foreign_keys` wholesale as `fkey_defs` (the source carries a
`TODO: sanity check that unnest attr is not in a fkey`).  The fresh
`uuid.uuid1().hex` relation name is modelled as the argument `fresh`. -/
def unnestDesc {γ κ φ μ : Type} (child : Desc γ κ φ μ) (fresh : String) : Desc γ κ φ μ :=
  Table_define fresh child.column_definitions [] child.foreign_keys child.comment child.meta

/-! ## `CrossJoin` (base.py lines 579-632) -/

/-- A column name conflicts when it occurs in both children's descriptions
(the Python set intersection, used only through membership). -/
def crossConflict (lNames rNames : List String) (d : String) : Prop :=
  d ∈ lNames ∧ d ∈ rNames

instance (lNames rNames : List String) (d : String) :
    Decidable (crossConflict lNames rNames d) := by
  unfold crossConflict; infer_instance

/-- One side's output columns: a conflicting column is renamed (on a copy) to
`<table_name>:<column_name>`, others pass through. -/
def crossRenamedCols {γ : Type} (lNames rNames : List String) (tname : String)
    (cols : List (ColumnDef γ)) : List (ColumnDef γ) :=
  cols.map (fun c =>
    if crossConflict lNames rNames c.name then { c with name := tname ++ ":" ++ c.name } else c)

/-- One side's `renames` dict (`new_name -> old_name`), in column order. -/
def crossRenames {γ : Type} (lNames rNames : List String) (tname : String)
    (cols : List (ColumnDef γ)) : List (String × String) :=
  (cols.filter (fun c => decide (crossConflict lNames rNames c.name))).map
    (fun c => (tname ++ ":" ++ c.name, c.name))

/-- `CrossJoin.__init__`'s description: both sides' (conflict-renamed) columns
concatenated, built by `Table.define` with no keys or foreign keys. -/
def crossJoinDesc {γ κ φ μ : Type} (ldef rdef : Desc γ κ φ μ) (meta : μ) : Desc γ κ φ μ :=
  Table_define (ldef.table_name ++ "_" ++ rdef.table_name)
    (crossRenamedCols (colNames ldef.column_definitions) (colNames rdef.column_definitions)
        ldef.table_name ldef.column_definitions ++
      crossRenamedCols (colNames ldef.column_definitions) (colNames rdef.column_definitions)
        rdef.table_name rdef.column_definitions)
    [] [] "" meta

/-- The inner loop of `CrossJoin.__iter__`: the *same* per-left-row dict is
`update`d with each renamed right row and yielded; the yielded snapshots are
collected (rows are ephemeral mappings with no persistent identity). -/
def crossInnerRows {α : Type} (rren : List (String × String)) :
    List (List (String × α)) → List (String × α) → Option (List (List (String × α)))
  | [], _ => some []
  | rr :: rest, acc => do
    let rr' ← rename_row rr rren false
    let acc' := dictUpdate acc rr'
    let tail ← crossInnerRows rren rest acc'
    pure (acc' :: tail)

/-- `CrossJoin.__iter__`: per left row, start from its renamed copy
(`always_copy=True`), run the inner loop over all right rows, and emit the
per-left-row chunks in order. -/
def crossJoinRows {α : Type} (lren rren : List (String × String)) :
    List (List (String × α)) → List (List (String × α)) →
      Option (List (List (String × α)))
  | [], _ => some []
  | lr :: rest, rrs => do
    let l0 ← rename_row lr lren true
    let outl ← crossInnerRows rren rrs l0
    let outr ← crossJoinRows lren rren rest rrs
    pure (outl ++ outr)

/-! ## `NestedLoopsSimilarityJoin` (base.py lines 635-678)

Row values are modelled by `PyVal α`: an atom, a Python list (the shape a
synonyms attribute must have), or `None`. -/

/-- A Python value as far as the similarity join inspects one. -/
inductive PyVal (α : Type) where
  | atom (a : α)
  | vlist (l : List (PyVal α))
  | pynone

/-- `right_row[synonyms] if right_row[synonyms] is not None else []`, followed
by list concatenation: `None` contributes no synonyms, a list contributes its
elements, an atom is a `TypeError` (`none`). -/
def asSynList {α : Type} : PyVal α → Option (List (PyVal α))
  | .pynone => some []
  | .vlist l => some l
  | .atom _ => none

/-- `domain_and_synonyms = [right_row[domain]] + synonyms` for one right row
(`none` on a missing attribute or non-list synonyms). -/
def simTerms {α : Type} (domain synonyms : String) (r : List (String × PyVal α)) :
    Option (List (PyVal α)) := do
  let sv ← dictGet r synonyms
  let syns ← asSynList sv
  let dv ← dictGet r domain
  pure (dv :: syns)

/-- The term scan for one right row: update `(best_match_score,
best_match_row)` on a strict improvement, and break out as soon as an exact
`0.0` similarity is recorded. -/
def innerScan {α : Type} (sim : PyVal α → PyVal α → ℚ) (target : PyVal α)
    (r : List (String × PyVal α)) :
    List (PyVal α) → ℚ → Option (List (String × PyVal α)) →
      ℚ × Option (List (String × PyVal α))
  | [], best, bestRow => (best, bestRow)
  | t :: ts, best, bestRow =>
    let s := sim target t
    if s < best then
      if s = 0 then (s, some r)
      else innerScan sim target r ts s (some r)
    else innerScan sim target r ts best bestRow

/-- The right-row scan for one left row: run the term scan on each cached
right row, and break out of the whole scan once the best score is exactly
`0.0`. -/
def outerScan {α : Type} (sim : PyVal α → PyVal α → ℚ) (target : PyVal α)
    (domain synonyms : String) :
    List (List (String × PyVal α)) → ℚ → Option (List (String × PyVal α)) →
      Option (ℚ × Option (List (String × PyVal α)))
  | [], best, bestRow => some (best, bestRow)
  | r :: rs, best, bestRow => do
    let ts ← simTerms domain synonyms r
    let p := innerScan sim target r ts best bestRow
    if p.1 = 0 then pure p else outerScan sim target domain synonyms rs p.1 p.2

/-- The body of `NestedLoopsSimilarityJoin.__iter__` for one left row: scan
the cached right rows from `(1.0, None)`; `if best_match_row:` is Python
truthiness of a dict, i.e. the match must be present *and* a nonempty dict;
on success yield the renamed left row updated with the renamed best match. -/
def simJoinYieldForLeft {α : Type} (sim : PyVal α → PyVal α → ℚ)
    (target domain synonyms : String) (lren rren : List (String × String))
    (rights : List (List (String × PyVal α))) (l : List (String × PyVal α)) :
    Option (List (List (String × PyVal α))) := do
  let tv ← dictGet l target
  let p ← outerScan sim tv domain synonyms rights 1 none
  match p.2 with
  | some br =>
    if br.isEmpty then pure []
    else do
      let l' ← rename_row l lren true
      let r' ← rename_row br rren true
      pure [dictUpdate l' r']
  | none => pure []

/-- `NestedLoopsSimilarityJoin.__iter__`: cache the right rows once, then
process each left row in order, emitting each left row's (empty or
singleton) output chunk. -/
def simJoinRows {α : Type} (sim : PyVal α → PyVal α → ℚ)
    (target domain synonyms : String) (lren rren : List (String × String)) :
    List (List (String × PyVal α)) → List (List (String × PyVal α)) →
      Option (List (List (String × PyVal α)))
  | [], _ => some []
  | l :: ls, rights => do
    let outl ← simJoinYieldForLeft sim target domain synonyms lren rren rights l
    let rest ← simJoinRows sim target domain synonyms lren rren ls rights
    pure (outl ++ rest)

/-! ### Specification-side definitions for the similarity join (C5)

These follow the claim's words — minimum score over the domain value and all
synonyms, earliest right row on ties, joined iff the best score is `< 1.0` —
with no early exits and no running state. -/

/-- The minimum similarity score of one right row over its domain value and
all its synonyms (the terms list is nonempty by construction; the `1`
fallbacks are unreachable for well-formed rows). -/
def specRowScore {α : Type} (sim : PyVal α → PyVal α → ℚ) (target : PyVal α)
    (domain synonyms : String) (r : List (String × PyVal α)) : ℚ :=
  match simTerms domain synonyms r with
  | some (t :: ts) => (ts.map (sim target)).foldl min (sim target t)
  | some [] => 1
  | none => 1

/-- The best (smallest) row score over all right rows, capped at `1`. -/
def specBestScore {α : Type} (sim : PyVal α → PyVal α → ℚ) (target : PyVal α)
    (domain synonyms : String) (rights : List (List (String × PyVal α))) : ℚ :=
  (rights.map (specRowScore sim target domain synonyms)).foldl min 1

/-- The right row the claim pairs a left row with: the earliest right row
achieving the minimum score, provided that score is `< 1.0`; otherwise no
row. -/
def specBestRow {α : Type} (sim : PyVal α → PyVal α → ℚ) (target : PyVal α)
    (domain synonyms : String) (rights : List (List (String × PyVal α))) :
    Option (List (String × PyVal α)) :=
  if specBestScore sim target domain synonyms rights < 1 then
    rights.find? (fun r =>
      decide (specRowScore sim target domain synonyms r =
        specBestScore sim target domain synonyms rights))
  else none

/-- The claim's output for one left row: the joined row with the best-scoring
right row when the best score is `< 1.0`, nothing otherwise. -/
def specYieldForLeft {α : Type} (sim : PyVal α → PyVal α → ℚ)
    (target domain synonyms : String) (lren rren : List (String × String))
    (rights : List (List (String × PyVal α))) (l : List (String × PyVal α)) :
    Option (List (List (String × PyVal α))) := do
  let tv ← dictGet l target
  match specBestRow sim tv domain synonyms rights with
  | some br => do
    let l' ← rename_row l lren true
    let r' ← rename_row br rren true
    pure [dictUpdate l' r']
  | none => pure []

/-- The claim's whole similarity-join output. -/
def simJoinSpecRows {α : Type} (sim : PyVal α → PyVal α → ℚ)
    (target domain synonyms : String) (lren rren : List (String × String)) :
    List (List (String × PyVal α)) → List (List (String × PyVal α)) →
      Option (List (List (String × PyVal α)))
  | [], _ => some []
  | l :: ls, rights => do
    let outl ← specYieldForLeft sim target domain synonyms lren rren rights l
    let rest ← simJoinSpecRows sim target domain synonyms lren rren ls rights
    pure (outl ++ rest)

/-! ## `NestedLoopsSimilarityAggregation.__iter__` (base.py lines 495-534)

With exactly one grouping attribute (enforced at construction), the key
getter is `row[grouping[0]]`, modelled by an abstract `keyOf : ρ → κ`.  Each
cached row is paired with its reverse-index entry `{'key': keyOf row,
'member_of': None}`; the Python guard `if not candidate['member_of']` tests
the *truthiness* of the stored key, modelled by `truthy`.  The non-nesting
group payload (the whole matched row) is modelled; with a nesting attribute
only the payload differs, the assignment logic is identical. -/

/-- Truthiness of the `member_of` field: `None` is falsy, a stored key is as
truthy as the key value (e.g. the empty string is falsy). -/
def truthyOpt {κ : Type} (truthy : κ → Bool) : Option κ → Bool
  | none => false
  | some k => truthy k

/-- The inner candidate loop for one scanned row's key `key1`: every
still-unassigned candidate whose key is `< 1.0`-similar to `key1` is marked
`member_of = key1`, and the group entry `groups[key1]` is overwritten with
the matched candidate's row. -/
def aggAbsorb {κ ρ : Type} [DecidableEq κ] (sim : κ → κ → ℚ) (truthy : κ → Bool)
    (keyOf : ρ → κ) (key1 : κ) :
    List (ρ × Option κ) → List (κ × ρ) → List (ρ × Option κ) × List (κ × ρ)
  | [], groups => ([], groups)
  | c :: cs, groups =>
    if truthyOpt truthy c.2 = false ∧ sim key1 (keyOf c.1) < 1 then
      let res := aggAbsorb sim truthy keyOf key1 cs (dictSet groups key1 c.1)
      ((c.1, some key1) :: res.1, res.2)
    else
      let res := aggAbsorb sim truthy keyOf key1 cs groups
      (c :: res.1, res.2)

/-- The outer row scan: process the cached rows in original order. -/
def aggLoop {κ ρ : Type} [DecidableEq κ] (sim : κ → κ → ℚ) (truthy : κ → Bool)
    (keyOf : ρ → κ) :
    List ρ → List (ρ × Option κ) → List (κ × ρ) → List (ρ × Option κ) × List (κ × ρ)
  | [], st, groups => (st, groups)
  | r :: rs, st, groups =>
    let res := aggAbsorb sim truthy keyOf (keyOf r) st groups
    aggLoop sim truthy keyOf rs res.1 res.2

/-- The accumulated `groups` dict of the non-nesting aggregation: start from
all rows unassigned and an empty dict. -/
def aggGroupsNoNest {κ ρ : Type} [DecidableEq κ] (sim : κ → κ → ℚ) (truthy : κ → Bool)
    (keyOf : ρ → κ) (rows : List ρ) : List (κ × ρ) :=
  (aggLoop sim truthy keyOf rows (rows.map (fun r => (r, none))) []).2

/-- The yielded output of the non-nesting aggregation:
`for k, v in groups.items(): yield v`. -/
def aggRowsNoNest {κ ρ : Type} [DecidableEq κ] (sim : κ → κ → ℚ) (truthy : κ → Bool)
    (keyOf : ρ → κ) (rows : List ρ) : List ρ :=
  (aggGroupsNoNest sim truthy keyOf rows).map Prod.snd

/-- The claim's first-match assignment policy (specification side): a row
keeps an already-assigned group; an unassigned row is assigned to the key of
the first scan row whose key is `< 1.0`-similar to its own, or stays
unassigned when there is none. -/
def aggSpecAssign {κ ρ : Type} (sim : κ → κ → ℚ) (keyOf : ρ → κ) (rs : List ρ)
    (c : ρ × Option κ) : Option κ :=
  match c.2 with
  | some k => some k
  | none => (rs.find? (fun x => decide (sim (keyOf x) (keyOf c.1) < 1))).map keyOf

/-! ## Construction-time validation (C9)

`Project.__init__` (base.py lines 254-300) dispatches on the projection-item
kind and raises `ValueError` for an unrecognized kind, or for an
`IntrospectionFunction` when the child relation is computed (its
`table_name` is still the placeholder).  `unsupported` stands for any Python
value of a kind the scan does not handle (including the consumed grammar's
`AttributeRemoval`, which `Project` has no case for). -/

/-- The projection-item grammar as `Project.__init__` dispatches on it. -/
inductive ProjItem (α : Type) where
  | allAttributes
  | attributeName (name : String)
  | introspectionFn (fn : α)
  | attributeAlias (name aliasName : String)
  | attributeDrop (name : String)
  | attributeAdd (definition : α)
  | unsupported (payload : α)

/-- Whether an item is of the unrecognized kind. -/
def ProjItem.isUnsupported {α : Type} : ProjItem α → Prop
  | .unsupported _ => True
  | _ => False

instance {α : Type} (i : ProjItem α) : Decidable i.isUnsupported := by
  cases i <;> (unfold ProjItem.isUnsupported; infer_instance)

/-- Whether an item is an `IntrospectionFunction`. -/
def ProjItem.isIntrospection {α : Type} : ProjItem α → Prop
  | .introspectionFn _ => True
  | _ => False

instance {α : Type} (i : ProjItem α) : Decidable i.isIntrospection := by
  cases i <;> (unfold ProjItem.isIntrospection; infer_instance)

/-- The validation performed on one projection item during the
`Project.__init__` scan (the map/column bookkeeping of valid items is not
relevant to error behaviour and is dropped here). -/
def projItemCheck {γ κ φ μ α : Type} (tdef : Desc γ κ φ μ) (item : ProjItem α) :
    Except String Unit :=
  match item with
  | .introspectionFn _ =>
    if tdef.table_name = tnamePlaceholder then
      .error "This operation is not supported on a computed relation"
    else .ok ()
  | .unsupported _ => .error "Unsupported projection type"
  | _ => .ok ()

/-- The `Project.__init__` item scan, raising at the first offending item;
run to completion before any row can be produced. -/
def projValidate {γ κ φ μ α : Type} (tdef : Desc γ κ φ μ) :
    List (ProjItem α) → Except String Unit
  | [] => .ok ()
  | item :: rest =>
    match projItemCheck tdef item with
    | .ok _ => projValidate tdef rest
    | .error e => .error e

/-- The arity assertions at the top of
`NestedLoopsSimilarityAggregation.__init__` (base.py lines 469-470), checked
in order before anything else. -/
def aggArityCheck (grouping nesting : List String) : Except String Unit :=
  if grouping.length = 1 then
    if nesting.length ≤ 1 then .ok ()
    else .error "only 1 nesting attribute allowed"
  else .error "must specify one grouping attribute"

/-! ## Concrete inputs used by counterexamples and witnesses -/

/-- A 63-character relation name. -/
def c1LongName : String := String.mk (List.replicate 63 'a')

/-- The rational `1/2`, built as a normalized `Rat` literal so that concrete
runs of the operators reduce inside the kernel. -/
def half : ℚ := ⟨1, 2, by decide, Nat.coprime_one_left 2⟩

/-- A similarity function into `[0,1]` under which everything is similar:
`0` on equal keys, `1/2` otherwise. -/
def simHalf (x y : String) : ℚ := if x = y then 0 else half

/-- The discrete similarity metric on strings: `0` on equal keys, `1`
otherwise. -/
def simDiscrete (x y : String) : ℚ := if x = y then 0 else 1

/-- A similarity function into `[0,1]`: `0` on equal keys, `1/2` between
short (length `≤ 1`) keys, `1` otherwise. -/
def simShort (x y : String) : ℚ :=
  if x = y then 0 else if x.length ≤ 1 ∧ y.length ≤ 1 then half else 1

/-- Python truthiness of a string key: the empty string is falsy. -/
def strTruthy (s : String) : Bool := !s.isEmpty

/-- A child description with a single column `a`, one key on `a` and one
foreign key on `a` (payloads `Unit`). -/
def c4Child : Desc Unit Unit Unit Unit :=
  ⟨"t", some "s", [⟨"a", ()⟩],
    [⟨[("s", "t_a_key")], ["a"], ()⟩],
    [⟨[("s", "t_a_fkey")], ["a"], ()⟩], "", ()⟩

/-- A left child of a cross join: table `T` with columns `x` and `T:x`. -/
def c6Left : Desc Unit Unit Unit Unit :=
  ⟨"T", some "s", [⟨"x", ()⟩, ⟨"T:x", ()⟩], [], [], "", ()⟩

/-- A right child of a cross join: table `R` with columns `x` and `T:x`. -/
def c6Right : Desc Unit Unit Unit Unit :=
  ⟨"R", some "s", [⟨"x", ()⟩, ⟨"T:x", ()⟩], [], [], "", ()⟩

/-- A left child for the cross-join witness: table `L` with columns `a`, `c`. -/
def c6wLeft : Desc Unit Unit Unit Unit :=
  ⟨"L", some "s", [⟨"a", ()⟩, ⟨"c", ()⟩], [], [], "", ()⟩

/-- A right child for the cross-join witness: table `R` with columns `b`, `c`. -/
def c6wRight : Desc Unit Unit Unit Unit :=
  ⟨"R", some "s", [⟨"b", ()⟩, ⟨"c", ()⟩], [], [], "", ()⟩

/-- A similarity function on modelled Python values: `0` between atoms, `1`
otherwise. -/
def simAtoms : PyVal Unit → PyVal Unit → ℚ
  | .atom _, .atom _ => 0
  | _, _ => 1

/-- A child description for `Assign`: a computed relation (placeholder table
name) with one templated key and one templated foreign key. -/
def c8Child : Desc Unit Unit Unit Unit :=
  ⟨tnamePlaceholder, none, [⟨"c", ()⟩],
    [⟨[("s0", "{__computed_relation__}_c_key")], ["c"], ()⟩],
    [⟨[("s0", "{__computed_relation__}_c_fkey")], ["c"], ()⟩], "cmt", ()⟩

/-! ## Shared lemmas about the dict model -/

theorem dictKeys_nil {κ α : Type} : dictKeys ([] : List (κ × α)) = [] := rfl

theorem dictKeys_cons {κ α : Type} (p : κ × α) (d : List (κ × α)) :
    dictKeys (p :: d) = p.1 :: dictKeys d := rfl

theorem dictGet_dictSet {κ α : Type} [DecidableEq κ] (d : List (κ × α)) (k k' : κ) (v : α) :
    dictGet (dictSet d k v) k' = if k = k' then some v else dictGet d k' := by
  induction d with
  | nil => simp [dictSet, dictGet]
  | cons p d ih =>
    by_cases h : p.1 = k
    · simp only [dictSet, if_pos h, dictGet]
      by_cases h' : k = k'
      · simp [h']
      · have hp : ¬ p.1 = k' := by rw [h]; exact h'
        simp [h', hp, dictGet]
    · simp only [dictSet, if_neg h, dictGet]
      by_cases h' : p.1 = k'
      · have : ¬ k = k' := fun e => h (by rw [e]; exact h')
        simp [h', this]
      · simp [h', ih]

theorem dictGet_dictDel {κ α : Type} [DecidableEq κ] (d : List (κ × α)) (k k' : κ) :
    dictGet (dictDel d k) k' = if k = k' then none else dictGet d k' := by
  induction d with
  | nil => simp [dictDel, dictGet]
  | cons p d ih =>
    by_cases h : p.1 = k
    · simp only [dictDel, if_pos h, ih]
      by_cases h' : k = k'
      · simp [h']
      · have hp : ¬ p.1 = k' := by rw [h]; exact h'
        simp [h', dictGet, hp]
    · simp only [dictDel, if_neg h, dictGet, ih]
      by_cases h' : p.1 = k'
      · have : ¬ k = k' := fun e => h (by rw [e]; exact h')
        simp [h', this]
      · simp [h']

theorem dictGet_isSome_iff {κ α : Type} [DecidableEq κ] (d : List (κ × α)) (k : κ) :
    (dictGet d k).isSome = true ↔ k ∈ dictKeys d := by
  induction d with
  | nil => simp [dictGet, dictKeys_nil]
  | cons p d ih =>
    by_cases h : p.1 = k
    · simp [dictGet, h, dictKeys_cons]
    · have : ¬ k = p.1 := fun e => h e.symm
      simp [dictGet, h, dictKeys_cons, ih, this]

theorem dictGet_eq_none_iff {κ α : Type} [DecidableEq κ] (d : List (κ × α)) (k : κ) :
    dictGet d k = none ↔ k ∉ dictKeys d := by
  rw [← dictGet_isSome_iff]
  cases dictGet d k <;> simp

theorem dictKeys_dictSet {κ α : Type} [DecidableEq κ] (d : List (κ × α)) (k : κ) (v : α) :
    dictKeys (dictSet d k v) =
      if k ∈ dictKeys d then dictKeys d else dictKeys d ++ [k] := by
  induction d with
  | nil => simp [dictSet, dictKeys_nil, dictKeys_cons]
  | cons p d ih =>
    by_cases h : p.1 = k
    · simp [dictSet, h, dictKeys_cons]
    · have hne : ¬ k = p.1 := fun e => h e.symm
      simp only [dictSet, if_neg h, dictKeys_cons, ih]
      by_cases h' : k ∈ dictKeys d
      · simp [h', hne, List.mem_cons]
      · simp [h', hne, List.mem_cons]

theorem dictKeys_dictDel {κ α : Type} [DecidableEq κ] (d : List (κ × α)) (k : κ) :
    dictKeys (dictDel d k) = (dictKeys d).filter (fun x => decide (¬ x = k)) := by
  induction d with
  | nil => simp [dictDel, dictKeys_nil]
  | cons p d ih =>
    by_cases h : p.1 = k
    · simp [dictDel, h, dictKeys_cons, ih, List.filter_cons]
    · simp [dictDel, h, dictKeys_cons, ih, List.filter_cons]

theorem mem_dictSet {κ α : Type} [DecidableEq κ] (d : List (κ × α)) (k : κ) (v : α)
    (p : κ × α) (hp : p ∈ dictSet d k v) : p ∈ d ∨ p = (k, v) := by
  induction d with
  | nil =>
    simp [dictSet] at hp
    simp [hp]
  | cons q d ih =>
    by_cases h : q.1 = k
    · simp only [dictSet, if_pos h, List.mem_cons] at hp
      rcases hp with hp | hp
      · right; exact hp
      · left; simp [hp]
    · simp only [dictSet, if_neg h, List.mem_cons] at hp
      rcases hp with hp | hp
      · left; simp [hp]
      · rcases ih hp with h' | h'
        · left; simp [h']
        · right; exact h'

theorem nodup_dictKeys_dictSet {κ α : Type} [DecidableEq κ] (d : List (κ × α)) (k : κ)
    (v : α) (h : (dictKeys d).Nodup) : (dictKeys (dictSet d k v)).Nodup := by
  rw [dictKeys_dictSet]
  by_cases h' : k ∈ dictKeys d
  · simpa [h']
  · simp only [h', if_false]
    simpa [List.nodup_append, h']

/-! ## Claim C1: length of synthesized constraint names -/

/-- C1 (counterexample): the constraint-name builder can return a
64-character identifier — with a 63-character relation name, a one-character
column name and the real suffix `key`, the result exceeds the claimed
63-character limit. -/
theorem claim1_counterexample :
    ¬ ((make_constraint_name c1LongName ["b"] "key").length ≤ 63) := by decide

/-- C1 (amended): for every relation name, column-name list, and suffix of
length at most 63, the string returned by the constraint-name builder is at
most **64** characters long (the clip keeps at most `63 - len(suffix)`
characters and then appends `'_' + suffix`). -/
theorem claim1_amended (tname : String) (cnames : List String) (suffix : String)
    (h : suffix.length ≤ 63) :
    (make_constraint_name tname cnames suffix).length ≤ 64 := by
  have hmk : (make_constraint_name tname cnames suffix).length =
      (pySliceTo (tname ++ "_" ++ String.intercalate "_" cnames).data
        (63 - (suffix.length : Int))).length + (1 + suffix.data.length) := by
    show (pySliceTo (tname ++ "_" ++ String.intercalate "_" cnames).data
        (63 - (suffix.length : Int)) ++ '_' :: suffix.data).length = _
    rw [List.length_append, List.length_cons]
    omega
  have h0 : (0 : Int) ≤ 63 - (suffix.length : Int) := by
    have : (suffix.length : Int) ≤ 63 := by exact_mod_cast h
    omega
  have hslice : (pySliceTo (tname ++ "_" ++ String.intercalate "_" cnames).data
      (63 - (suffix.length : Int))).length ≤ ((63 : Int) - (suffix.length : Int)).toNat := by
    rw [pySliceTo, if_pos h0]
    exact List.length_take_le _ _
  have hdata : suffix.data.length = suffix.length := rfl
  omega

/-- C1 (witness for the amended claim at a concrete input). -/
theorem claim1_witness :
    ("key" : String).length ≤ 63 ∧ (make_constraint_name "t" ["c"] "key").length ≤ 64 :=
  ⟨by decide, claim1_amended "t" ["c"] "key" (by decide)⟩

/-! ## Claim C4: Unnest's output description -/

/-- C4 (evaluation at the failing input): unnesting the column `a` of a child
whose only foreign key is *on* `a` keeps that foreign key in the output
description verbatim (while dropping every key and keeping the columns), so a
constraint touching the unnested column is **not** omitted. -/
theorem claim4_eval_at_failing_input :
    colNames (unnestDesc c4Child "u").column_definitions =
      colNames c4Child.column_definitions ∧
    (unnestDesc c4Child "u").keys = [] ∧
    (unnestDesc c4Child "u").foreign_keys = [⟨[("s", "t_a_fkey")], ["a"], ()⟩] ∧
    "a" ∈ (⟨[("s", "t_a_fkey")], ["a"], ()⟩ : FKeyDef Unit).foreign_key_columns := by
  refine ⟨rfl, rfl, rfl, ?_⟩
  simp

/-! ## Claim C9: construction-time validation -/

theorem projItemCheck_ok_iff {γ κ φ μ α : Type} (tdef : Desc γ κ φ μ) (i : ProjItem α) :
    projItemCheck tdef i = .ok () ↔
      ¬ i.isUnsupported ∧ (i.isIntrospection → tdef.table_name ≠ tnamePlaceholder) := by
  cases i with
  | introspectionFn f =>
    simp only [projItemCheck, ProjItem.isUnsupported, ProjItem.isIntrospection]
    by_cases h : tdef.table_name = tnamePlaceholder
    · simp [h]
    · simp [h]
  | allAttributes => simp [projItemCheck, ProjItem.isUnsupported, ProjItem.isIntrospection]
  | attributeName n => simp [projItemCheck, ProjItem.isUnsupported, ProjItem.isIntrospection]
  | attributeAlias n a =>
    simp [projItemCheck, ProjItem.isUnsupported, ProjItem.isIntrospection]
  | attributeDrop n => simp [projItemCheck, ProjItem.isUnsupported, ProjItem.isIntrospection]
  | attributeAdd d => simp [projItemCheck, ProjItem.isUnsupported, ProjItem.isIntrospection]
  | unsupported p => simp [projItemCheck, ProjItem.isUnsupported, ProjItem.isIntrospection]

/-- C9: the modelled usage/validation checks of `Project.__init__` succeed
exactly when no projection item is malformed/unsupported and no
introspection item is applied to a computed (placeholder-named) relation,
and the arity assertions of `NestedLoopsSimilarityAggregation.__init__`
succeed exactly for one grouping attribute and at most one nesting
attribute.  Both checks run to completion inside the constructors, before
the (separate) row generators can be invoked, so a failed construction never
yields a row. -/
theorem claim9_construction_validation {γ κ φ μ α : Type} (tdef : Desc γ κ φ μ)
    (items : List (ProjItem α)) (grouping nesting : List String) :
    (projValidate tdef items = .ok () ↔
      ∀ i ∈ items, ¬ i.isUnsupported ∧
        (i.isIntrospection → tdef.table_name ≠ tnamePlaceholder)) ∧
    (aggArityCheck grouping nesting = .ok () ↔
      grouping.length = 1 ∧ nesting.length ≤ 1) := by
  constructor
  · induction items with
    | nil => simp [projValidate]
    | cons i rest ih =>
      simp only [projValidate]
      rcases h : projItemCheck tdef i with e | u
      · have hno : ¬ (projItemCheck tdef i = .ok ()) := by simp [h]
        rw [projItemCheck_ok_iff] at hno
        constructor
        · intro hc
          simp at hc
        · intro hall
          exact absurd (hall i (by simp)) hno
      · cases u
        have hok : projItemCheck tdef i = .ok () := h
        rw [projItemCheck_ok_iff] at hok
        simp only [ih]
        constructor
        · intro hall i' hi'
          rcases List.mem_cons.mp hi' with rfl | hi'
          · exact hok
          · exact hall i' hi'
        · intro hall i' hi'
          exact hall i' (List.mem_cons_of_mem _ hi')
  · unfold aggArityCheck
    by_cases hg : grouping.length = 1
    · by_cases hn : nesting.length ≤ 1 <;> simp [hg, hn]
    · simp [hg]

/-- C9 (witness): a valid projection over a concrete relation and a valid
arity pass the checks. -/
theorem claim9_witness :
    projValidate (α := Unit) c4Child [ProjItem.allAttributes, ProjItem.attributeName "a"] =
      .ok () ∧
    aggArityCheck ["g"] [] = .ok () :=
  ⟨(claim9_construction_validation c4Child _ ["g"] []).1.mpr (by decide),
   (claim9_construction_validation (α := Unit) c4Child [] ["g"] []).2.mpr (by decide)⟩

/-! ## Claim C10: the Metadata operator -/

/-- C10: `Metadata` returns exactly the description it was constructed with
(via the `_description` branch of the description fallback), and requesting
its rows always raises (`NotImplementedError`), producing no row sequence. -/
theorem claim10_metadata {D : Type} (ρ : Type) (d : D) :
    metadataDescription d = some d ∧
    metadataRows ρ = Except.error "The Metadata operator cannot be iterated." :=
  ⟨rfl, rfl⟩

/-! ## Claims C2 and C3: NestedLoopsSimilarityAggregation -/

theorem simShort_into_unit_interval (x y : String) :
    0 ≤ simShort x y ∧ simShort x y ≤ 1 := by
  unfold simShort
  split
  · norm_num
  · split
    · exact ⟨by decide, by decide⟩
    · norm_num

/-- C2 (counterexample): with rows `{key "a"}, {key "b"}` and a similarity
function into `[0,1]` under which the two keys are `1/2`-similar, everything
is absorbed into the single group with key `"a"`, yet the emitted row is the
*last absorbed* row `("b", 2)` — not the cached input row whose
grouping-attribute value is the group key (`("a", 1)`). -/
theorem claim2_counterexample :
    aggGroupsNoNest simHalf (fun _ => true) Prod.fst [("a", (1 : ℕ)), ("b", 2)] =
      [("a", ("b", 2))] ∧
    aggRowsNoNest simHalf (fun _ => true) Prod.fst [("a", (1 : ℕ)), ("b", 2)] = [("b", 2)] ∧
    (("b", (2 : ℕ)).1 = "a") = False := by
  refine ⟨by decide, by decide, by simp⟩

theorem aggAbsorb_fst_map {κ ρ : Type} [DecidableEq κ] (sim : κ → κ → ℚ)
    (truthy : κ → Bool) (keyOf : ρ → κ) (key1 : κ) (st : List (ρ × Option κ))
    (g : List (κ × ρ)) :
    ((aggAbsorb sim truthy keyOf key1 st g).1).map Prod.fst = st.map Prod.fst := by
  induction st generalizing g with
  | nil => simp [aggAbsorb]
  | cons c cs ih =>
    by_cases h : truthyOpt truthy c.2 = false ∧ sim key1 (keyOf c.1) < 1
    · simp [aggAbsorb, h, ih]
    · simp [aggAbsorb, h, ih]

theorem aggAbsorb_groups_inv {κ ρ : Type} [DecidableEq κ] (sim : κ → κ → ℚ)
    (truthy : κ → Bool) (keyOf : ρ → κ) (key1 : κ) (R : List ρ) :
    ∀ (st : List (ρ × Option κ)) (g : List (κ × ρ)),
      (∀ c ∈ st, c.1 ∈ R) →
      (dictKeys g).Nodup → (∀ p ∈ g, p.2 ∈ R) →
      ((∀ a b, sim a b < 1 → a = b) → ∀ p ∈ g, keyOf p.2 = p.1) →
      (dictKeys (aggAbsorb sim truthy keyOf key1 st g).2).Nodup ∧
        (∀ p ∈ (aggAbsorb sim truthy keyOf key1 st g).2, p.2 ∈ R) ∧
        ((∀ a b, sim a b < 1 → a = b) →
          ∀ p ∈ (aggAbsorb sim truthy keyOf key1 st g).2, keyOf p.2 = p.1) := by
  intro st
  induction st with
  | nil =>
    intro g _ hnd hv hk
    exact ⟨hnd, hv, hk⟩
  | cons c cs ih =>
    intro g hst hnd hv hk
    by_cases h : truthyOpt truthy c.2 = false ∧ sim key1 (keyOf c.1) < 1
    · simp only [aggAbsorb, if_pos h]
      refine ih (dictSet g key1 c.1) (fun x hx => hst x (List.mem_cons_of_mem _ hx))
        (nodup_dictKeys_dictSet _ _ _ hnd) ?_ ?_
      · intro p hp
        rcases mem_dictSet _ _ _ _ hp with hp' | hp'
        · exact hv p hp'
        · rw [hp']
          exact hst c (List.mem_cons_self _ _)
      · intro hd p hp
        rcases mem_dictSet _ _ _ _ hp with hp' | hp'
        · exact hk hd p hp'
        · rw [hp']
          exact (hd _ _ h.2).symm
    · simp only [aggAbsorb, if_neg h]
      exact ih g (fun x hx => hst x (List.mem_cons_of_mem _ hx)) hnd hv hk

theorem aggLoop_groups_inv {κ ρ : Type} [DecidableEq κ] (sim : κ → κ → ℚ)
    (truthy : κ → Bool) (keyOf : ρ → κ) (R : List ρ) :
    ∀ (rs : List ρ) (st : List (ρ × Option κ)) (g : List (κ × ρ)),
      (∀ c ∈ st, c.1 ∈ R) →
      (dictKeys g).Nodup → (∀ p ∈ g, p.2 ∈ R) →
      ((∀ a b, sim a b < 1 → a = b) → ∀ p ∈ g, keyOf p.2 = p.1) →
      (dictKeys (aggLoop sim truthy keyOf rs st g).2).Nodup ∧
        (∀ p ∈ (aggLoop sim truthy keyOf rs st g).2, p.2 ∈ R) ∧
        ((∀ a b, sim a b < 1 → a = b) →
          ∀ p ∈ (aggLoop sim truthy keyOf rs st g).2, keyOf p.2 = p.1) := by
  intro rs
  induction rs with
  | nil =>
    intro st g _ hnd hv hk
    exact ⟨hnd, hv, hk⟩
  | cons r rs ih =>
    intro st g hst hnd hv hk
    simp only [aggLoop]
    have habs := aggAbsorb_groups_inv sim truthy keyOf (keyOf r) R st g hst hnd hv hk
    refine ih _ _ ?_ habs.1 habs.2.1 habs.2.2
    intro c hc
    have hmem : c.1 ∈ (aggAbsorb sim truthy keyOf (keyOf r) st g).1.map Prod.fst :=
      List.mem_map_of_mem _ hc
    rw [aggAbsorb_fst_map] at hmem
    rcases List.mem_map.mp hmem with ⟨x, hx, hx1⟩
    rw [← hx1]
    exact hst x hx

/-- C2 (amended): for the non-nesting aggregation, for *every* similarity
function and truthiness test, the output has exactly one row per group (the
group keys of the yielded `groups` dict are pairwise distinct) and each
yielded row is one of the cached input rows (the last one absorbed into its
group); when, additionally, similarity below `1.0` implies equal keys (e.g.
the discrete metric), the yielded row's grouping value does equal the group
key. -/
theorem claim2_amended {κ ρ : Type} [DecidableEq κ] (sim : κ → κ → ℚ)
    (truthy : κ → Bool) (keyOf : ρ → κ) (rows : List ρ) :
    (dictKeys (aggGroupsNoNest sim truthy keyOf rows)).Nodup ∧
    (∀ p ∈ aggGroupsNoNest sim truthy keyOf rows, p.2 ∈ rows) ∧
    ((∀ a b, sim a b < 1 → a = b) →
      ∀ p ∈ aggGroupsNoNest sim truthy keyOf rows, keyOf p.2 = p.1) := by
  unfold aggGroupsNoNest
  exact aggLoop_groups_inv sim truthy keyOf rows rows (rows.map fun r => (r, none)) []
    (by intro c hc; rcases List.mem_map.mp hc with ⟨x, hx, hx1⟩; rw [← hx1]; exact hx)
    (by simp [dictKeys_nil]) (by simp) (by simp)

/-- C2 (witness for the amended claim): the unconditional conjuncts at the
counterexample's everything-similar metric, and the key-equality conjunct at
the discrete metric with its hypothesis discharged. -/
theorem claim2_witness :
    (∀ a b : String, simDiscrete a b < 1 → a = b) ∧
    (dictKeys (aggGroupsNoNest simHalf (fun _ => true) Prod.fst
      [("a", (1 : ℕ)), ("b", 2)])).Nodup ∧
    (∀ p ∈ aggGroupsNoNest simHalf (fun _ => true) Prod.fst [("a", (1 : ℕ)), ("b", 2)],
      p.2 ∈ [("a", (1 : ℕ)), ("b", 2)]) ∧
    (∀ p ∈ aggGroupsNoNest simDiscrete strTruthy Prod.fst [("a", (1 : ℕ)), ("a", 2)],
      p.2.1 = p.1) := by
  have hd : ∀ a b : String, simDiscrete a b < 1 → a = b := by
    intro a b h
    by_contra hne
    simp [simDiscrete, hne] at h
  exact ⟨hd,
    (claim2_amended simHalf (fun _ => true) Prod.fst [("a", (1 : ℕ)), ("b", 2)]).1,
    (claim2_amended simHalf (fun _ => true) Prod.fst [("a", (1 : ℕ)), ("b", 2)]).2.1,
    (claim2_amended simDiscrete strTruthy Prod.fst [("a", (1 : ℕ)), ("a", 2)]).2.2 hd⟩

/-- C3 (counterexample): with a falsy group key (the empty string) the
"still-unassigned" test `if not candidate['member_of']` misfires: scanning
rows `{key ""}, {key "b"}` under a similarity function into `[0,1]`, the row
`("b", 2)` is first absorbed into group `""` and later *re-absorbed* into
group `"b"` — it ends up a member of two distinct groups, refuting "placed
in at most one group and never reassigned". -/
theorem claim3_counterexample :
    (∀ x y : String, 0 ≤ simShort x y ∧ simShort x y ≤ 1) ∧
    aggGroupsNoNest simShort strTruthy Prod.fst [("", (1 : ℕ)), ("b", 2)] =
      [("", ("b", 2)), ("b", ("b", 2))] ∧
    ("" : String) ≠ "b" := by
  refine ⟨simShort_into_unit_interval, by decide, by decide⟩

theorem aggAbsorb_fst_truthy {κ ρ : Type} [DecidableEq κ] (sim : κ → κ → ℚ)
    (truthy : κ → Bool) (keyOf : ρ → κ) (key1 : κ) (ht : ∀ k, truthy k = true)
    (st : List (ρ × Option κ)) (g : List (κ × ρ)) :
    (aggAbsorb sim truthy keyOf key1 st g).1 =
      st.map (fun c => match c.2 with
        | some k => (c.1, some k)
        | none => if sim key1 (keyOf c.1) < 1 then (c.1, some key1) else (c.1, none)) := by
  induction st generalizing g with
  | nil => simp [aggAbsorb]
  | cons c cs ih =>
    rcases c with ⟨r, m⟩
    cases m with
    | none =>
      by_cases hs : sim key1 (keyOf r) < 1
      · have hcond : truthyOpt truthy (none : Option κ) = false ∧ sim key1 (keyOf r) < 1 :=
          ⟨rfl, hs⟩
        simp only [aggAbsorb, if_pos hcond, List.map_cons, ih]
        simp [hs]
      · have hcond : ¬ (truthyOpt truthy (none : Option κ) = false ∧
            sim key1 (keyOf r) < 1) := by
          simp [truthyOpt, hs]
        simp only [aggAbsorb, if_neg hcond, List.map_cons, ih]
        simp [hs]
    | some k =>
      have hcond : ¬ (truthyOpt truthy (some k) = false ∧ sim key1 (keyOf r) < 1) := by
        simp [truthyOpt, ht k]
      simp only [aggAbsorb, if_neg hcond, List.map_cons, ih]

theorem aggLoop_fst_char {κ ρ : Type} [DecidableEq κ] (sim : κ → κ → ℚ)
    (truthy : κ → Bool) (keyOf : ρ → κ) (ht : ∀ k, truthy k = true) :
    ∀ (rs : List ρ) (st : List (ρ × Option κ)) (g : List (κ × ρ)),
      (aggLoop sim truthy keyOf rs st g).1 =
        st.map (fun c => (c.1, aggSpecAssign sim keyOf rs c)) := by
  intro rs
  induction rs with
  | nil =>
    intro st g
    simp only [aggLoop]
    have hpt : ∀ c : ρ × Option κ, (c.1, aggSpecAssign sim keyOf [] c) = c := by
      intro c
      rcases c with ⟨r, m⟩
      cases m <;> simp [aggSpecAssign, List.find?]
    conv_lhs => rw [← List.map_id st]
    exact List.map_congr_left (fun a _ => (hpt a).symm)
  | cons r rs ih =>
    intro st g
    simp only [aggLoop]
    rw [ih, aggAbsorb_fst_truthy sim truthy keyOf (keyOf r) ht, List.map_map]
    have hpt : ∀ c : ρ × Option κ,
        ((fun c => (c.1, aggSpecAssign sim keyOf rs c)) ∘ (fun c => match c.2 with
          | some k => (c.1, some k)
          | none => if sim (keyOf r) (keyOf c.1) < 1 then (c.1, some (keyOf r))
                    else (c.1, none))) c =
        (c.1, aggSpecAssign sim keyOf (r :: rs) c) := by
      intro c
      rcases c with ⟨x, m⟩
      cases m with
      | some k => simp [aggSpecAssign]
      | none =>
        by_cases hs : sim (keyOf r) (keyOf x) < 1
        · simp [hs, aggSpecAssign, List.find?_cons_of_pos, decide_eq_true hs]
        · simp [hs, aggSpecAssign, List.find?_cons_of_neg, decide_eq_false hs]
    exact List.map_congr_left (fun a _ => hpt a)

theorem aggLoop_preserves_assigned {κ ρ : Type} [DecidableEq κ] (sim : κ → κ → ℚ)
    (truthy : κ → Bool) (keyOf : ρ → κ) (ht : ∀ k, truthy k = true) :
    ∀ (rs : List ρ) (st : List (ρ × Option κ)) (g : List (κ × ρ)) (i : ℕ) (r : ρ) (k : κ),
      st.get? i = some (r, some k) →
      ((aggLoop sim truthy keyOf rs st g).1).get? i = some (r, some k) := by
  intro rs
  induction rs with
  | nil =>
    intro st g i r k h
    simpa [aggLoop] using h
  | cons r0 rs ih =>
    intro st g i r k h
    simp only [aggLoop]
    apply ih
    rw [aggAbsorb_fst_truthy sim truthy keyOf (keyOf r0) ht, List.get?_map, h]
    simp

/-- C3 (amended): provided the truthiness test accepts every group key (for
instance when keys are nonempty strings), the final reverse index equals the
first-match policy — each row is assigned to the key of the first scanned row
whose key is `< 1.0`-similar to it (or stays unassigned), hence lands in at
most one group; and an already-assigned row is never reassigned by any
further scanning.  With a falsy group key (empty string, `0`, `None`) the
`if not candidate['member_of']` guard misfires and a row can be reassigned
(see the counterexample). -/
theorem claim3_amended {κ ρ : Type} [DecidableEq κ] (sim : κ → κ → ℚ)
    (truthy : κ → Bool) (keyOf : ρ → κ) (rows : List ρ)
    (ht : ∀ k, truthy k = true) :
    (aggLoop sim truthy keyOf rows (rows.map fun r => (r, none)) []).1 =
      rows.map (fun c => (c,
        (rows.find? (fun x => decide (sim (keyOf x) (keyOf c) < 1))).map keyOf)) ∧
    (∀ (rs : List ρ) (st : List (ρ × Option κ)) (g : List (κ × ρ)) (i : ℕ) (r : ρ) (k : κ),
      st.get? i = some (r, some k) →
      ((aggLoop sim truthy keyOf rs st g).1).get? i = some (r, some k)) := by
  constructor
  · rw [aggLoop_fst_char sim truthy keyOf ht, List.map_map]
    exact List.map_congr_left (fun a _ => by simp [aggSpecAssign])
  · exact aggLoop_preserves_assigned sim truthy keyOf ht

/-- C3 (witness for the amended claim, with an always-truthy key test). -/
theorem claim3_witness :
    (∀ k : String, (fun (_ : String) => true) k = true) ∧
    ((aggLoop simDiscrete (fun _ => true) Prod.fst [("a", (1 : ℕ)), ("b", 2)]
        ([("a", (1 : ℕ)), ("b", 2)].map fun r => (r, none)) []).1 =
      [("a", (1 : ℕ)), ("b", 2)].map (fun c => (c,
        ([("a", (1 : ℕ)), ("b", 2)].find?
          (fun x => decide (simDiscrete x.1 c.1 < 1))).map Prod.fst)) ∧
    (∀ (rs : List (String × ℕ)) (st : List ((String × ℕ) × Option String))
        (g : List (String × (String × ℕ))) (i : ℕ) (r : String × ℕ) (k : String),
      st.get? i = some (r, some k) →
      ((aggLoop simDiscrete (fun _ => true) Prod.fst rs st g).1).get? i =
        some (r, some k))) :=
  ⟨fun _ => rfl,
   claim3_amended simDiscrete (fun _ => true) Prod.fst [("a", (1 : ℕ)), ("b", 2)]
     (fun _ => rfl)⟩

/-! ## Claim C7: `_rename_row_attributes` -/

theorem find?_fst_nodup {κ α : Type} [DecidableEq κ] (l : List (κ × α))
    (h : (l.map Prod.fst).Nodup) (p : κ × α) (hp : p ∈ l) :
    l.find? (fun q => decide (q.1 = p.1)) = some p := by
  induction l with
  | nil => cases hp
  | cons q rest ih =>
    have hnd : q.1 ∉ rest.map Prod.fst ∧ (rest.map Prod.fst).Nodup := by
      rw [List.map_cons, List.nodup_cons] at h
      exact h
    rcases List.mem_cons.mp hp with rfl | hp'
    · exact List.find?_cons_of_pos _ (by simp)
    · have hne : ¬ q.1 = p.1 := by
        intro he
        exact hnd.1 (he ▸ List.mem_map_of_mem Prod.fst hp')
      rw [List.find?_cons_of_neg _ (by simpa using hne)]
      exact ih hnd.2 hp'

theorem rename_fold_get {α : Type} (row : List (String × α)) :
    ∀ (todo : List (String × String)) (nr : List (String × α)),
      (∀ p ∈ todo, p.2 ∈ dictKeys row) →
      (∀ p ∈ todo, ∀ q ∈ todo, p.1 ≠ q.2) →
      (todo.map Prod.fst).Nodup →
      ∃ out, todo.foldlM (renameStep row) nr = some out ∧
        ∀ k, dictGet out k =
          match todo.find? (fun p => decide (p.1 = k)) with
          | some p => dictGet row p.2
          | none => if k ∈ todo.map Prod.snd then none else dictGet nr k := by
  intro todo
  induction todo with
  | nil =>
    intro nr _ _ _
    exact ⟨nr, rfl, by intro k; simp [List.find?]⟩
  | cons p rest ih =>
    intro nr h1 h2 h3
    have hp2 : p.2 ∈ dictKeys row := h1 p (List.mem_cons_self _ _)
    have hsome : ∃ v, dictGet row p.2 = some v := by
      have hs := (dictGet_isSome_iff row p.2).mpr hp2
      cases hv : dictGet row p.2
      · rw [hv] at hs; simp at hs
      · exact ⟨_, rfl⟩
    rcases hsome with ⟨v, hv⟩
    have hstep : renameStep row nr p = some (dictDel (dictSet nr p.1 v) p.2) := by
      simp [renameStep, hv]
    have hnd : p.1 ∉ rest.map Prod.fst ∧ (rest.map Prod.fst).Nodup := by
      rw [List.map_cons, List.nodup_cons] at h3
      exact h3
    rcases ih (dictDel (dictSet nr p.1 v) p.2)
        (fun q hq => h1 q (List.mem_cons_of_mem _ hq))
        (fun q hq q' hq' =>
          h2 q (List.mem_cons_of_mem _ hq) q' (List.mem_cons_of_mem _ hq'))
        hnd.2 with ⟨out, hout, hget⟩
    refine ⟨out, ?_, ?_⟩
    · show (renameStep row nr p >>= fun nr' => rest.foldlM (renameStep row) nr') = some out
      rw [hstep]
      exact hout
    intro k
    rw [hget k]
    by_cases hk : p.1 = k
    · rw [List.find?_cons_of_pos _ (by simpa using hk)]
      have hfr : rest.find? (fun q => decide (q.1 = k)) = none := by
        cases hf : rest.find? (fun q => decide (q.1 = k)) with
        | none => rfl
        | some q =>
          have hqmem := List.mem_of_find?_eq_some hf
          have hq1 : q.1 = k := by simpa using List.find?_some hf
          exact absurd (hq1.trans hk.symm ▸ List.mem_map_of_mem Prod.fst hqmem) hnd.1
      rw [hfr]
      show (if k ∈ rest.map Prod.snd then none
            else dictGet (dictDel (dictSet nr p.1 v) p.2) k) = dictGet row p.2
      have hko : k ∉ rest.map Prod.snd := by
        intro hmem
        rcases List.mem_map.mp hmem with ⟨q, hq, hq2⟩
        exact h2 p (List.mem_cons_self _ _) q (List.mem_cons_of_mem _ hq) (hk.trans hq2.symm)
      rw [if_neg hko]
      have hpne : ¬ p.2 = k := by
        intro he
        exact h2 p (List.mem_cons_self _ _) p (List.mem_cons_self _ _) (hk.trans he.symm)
      rw [dictGet_dictDel, if_neg hpne, dictGet_dictSet, if_pos hk, hv]
    · rw [List.find?_cons_of_neg _ (by simpa using hk)]
      cases hf : rest.find? (fun q => decide (q.1 = k)) with
      | some q => rfl
      | none =>
        show (if k ∈ rest.map Prod.snd then none
              else dictGet (dictDel (dictSet nr p.1 v) p.2) k) =
            (if k ∈ (p :: rest).map Prod.snd then none else dictGet nr k)
        by_cases hk2 : p.2 = k
        · have hmem : k ∈ (p :: rest).map Prod.snd := by
            rw [← hk2]
            exact List.mem_map_of_mem Prod.snd (List.mem_cons_self _ _)
          rw [if_pos hmem]
          by_cases hmem' : k ∈ rest.map Prod.snd
          · rw [if_pos hmem']
          · rw [if_neg hmem', dictGet_dictDel, if_pos hk2]
        · have hsplit : k ∈ (p :: rest).map Prod.snd ↔ k ∈ rest.map Prod.snd := by
            constructor
            · intro hmem
              rcases List.mem_map.mp hmem with ⟨q, hq, hq2⟩
              rcases List.mem_cons.mp hq with rfl | hq'
              · exact absurd hq2 hk2
              · exact hq2 ▸ List.mem_map_of_mem Prod.snd hq'
            · intro hmem
              rcases List.mem_map.mp hmem with ⟨q, hq, hq2⟩
              exact hq2 ▸ List.mem_map_of_mem Prod.snd (List.mem_cons_of_mem _ hq)
          by_cases hmem' : k ∈ rest.map Prod.snd
          · rw [if_pos hmem', if_pos (hsplit.mpr hmem')]
          · rw [if_neg hmem', if_neg (fun h => hmem' (hsplit.mp h))]
            rw [dictGet_dictDel, if_neg hk2, dictGet_dictSet, if_neg hk]

/-- C7 (counterexample): a rename pair that maps a name to itself *deletes*
the attribute instead of preserving it — `rename_row` on `{a: 1, x: 2}` with
the self-pair `a → a` returns `{x: 2}`, dropping `a` entirely, while the
claim requires `result['a'] = row['a'] = 1`. -/
theorem claim7_counterexample :
    rename_row [("a", (1 : ℕ)), ("x", 2)] [("a", "a")] false = some [("x", 2)] ∧
    dictGet [("x", (2 : ℕ))] "a" = none ∧
    dictGet [("a", (1 : ℕ)), ("x", 2)] "a" = some 1 := by
  refine ⟨by decide, by decide, by decide⟩

/-- C7 (amended): `rename_row(row, renameMap, alwaysCopy)` returns the row
unchanged when `renameMap` is empty; otherwise, for every input row
containing every old name of the map, and provided the new names are fresh —
no new name equals an old name (in particular no pair maps a name to itself)
or any other key of the row — it returns a mapping with
`result[new] = row[old]` for each pair, every old key dropped, and every
other key of `row` preserved.  A pair mapping a name to itself instead
deletes that key (see the counterexample). -/
theorem claim7_amended {α : Type} (row : List (String × α))
    (renames : List (String × String)) (ac : Bool)
    (h1 : ∀ p ∈ renames, p.2 ∈ dictKeys row)
    (h2 : ∀ p ∈ renames, p.1 ∉ dictKeys row)
    (h3 : (renames.map Prod.fst).Nodup) :
    ∃ out, rename_row row renames ac = some out ∧
      (renames = [] → out = row) ∧
      (∀ p ∈ renames, dictGet out p.1 = dictGet row p.2) ∧
      (∀ p ∈ renames, dictGet out p.2 = none) ∧
      (∀ k, k ∉ renames.map Prod.fst → k ∉ renames.map Prod.snd →
        dictGet out k = dictGet row k) := by
  by_cases hemp : renames = []
  · subst hemp
    exact ⟨row, rfl, fun _ => rfl, by simp, by simp, fun k _ _ => rfl⟩
  · have h2' : ∀ p ∈ renames, ∀ q ∈ renames, p.1 ≠ q.2 := by
      intro p hp q hq he
      exact h2 p hp (he ▸ h1 q hq)
    rcases rename_fold_get row renames row h1 h2' h3 with ⟨out, hout, hget⟩
    refine ⟨out, ?_, fun h => absurd h hemp, ?_, ?_, ?_⟩
    · rw [rename_row, if_neg hemp]
      exact hout
    · intro p hp
      rw [hget p.1, find?_fst_nodup renames h3 p hp]
    · intro p hp
      rw [hget p.2]
      have hfind : renames.find? (fun q => decide (q.1 = p.2)) = none := by
        cases hf : renames.find? (fun q => decide (q.1 = p.2)) with
        | none => rfl
        | some q =>
          have hqmem := List.mem_of_find?_eq_some hf
          have hq1 : q.1 = p.2 := by simpa using List.find?_some hf
          exact absurd (hq1 ▸ h1 p hp) (h2 q hqmem)
      rw [hfind]
      have hmem : p.2 ∈ renames.map Prod.snd := List.mem_map_of_mem Prod.snd hp
      simp [hmem]
    · intro k hk1 hk2
      rw [hget k]
      have hfind : renames.find? (fun q => decide (q.1 = k)) = none := by
        cases hf : renames.find? (fun q => decide (q.1 = k)) with
        | none => rfl
        | some q =>
          have hqmem := List.mem_of_find?_eq_some hf
          have hq1 : q.1 = k := by simpa using List.find?_some hf
          exact absurd (hq1 ▸ List.mem_map_of_mem Prod.fst hqmem) hk1
      rw [hfind]
      simp [hk2]

/-- C7 (witness for the amended claim). -/
theorem claim7_witness :
    (∀ p ∈ [("x", "a")], p.2 ∈ dictKeys [("a", (1 : ℕ)), ("b", 2)]) ∧
    (∃ out, rename_row [("a", (1 : ℕ)), ("b", 2)] [("x", "a")] false = some out ∧
      ([("x", "a")] = ([] : List (String × String)) → out = [("a", (1 : ℕ)), ("b", 2)]) ∧
      (∀ p ∈ [("x", "a")], dictGet out p.1 = dictGet [("a", (1 : ℕ)), ("b", 2)] p.2) ∧
      (∀ p ∈ [("x", "a")], dictGet out p.2 = none) ∧
      (∀ k, k ∉ [("x", "a")].map Prod.fst → k ∉ [("x", "a")].map Prod.snd →
        dictGet out k = dictGet [("a", (1 : ℕ)), ("b", 2)] k)) :=
  ⟨by decide, claim7_amended [("a", (1 : ℕ)), ("b", 2)] [("x", "a")] false
    (by decide) (by decide) (by decide)⟩

/-! ## Claim C8: the Assign family of mutation markers -/

/-- C8: `Assign` (and, by delegation, `Create`/`Alter`/`Drop`) stamps the
destination schema and table name onto a copy of the child's description,
leaves columns, comment and the remaining metadata untouched, rewrites each
key/foreign-key constraint-name list positionally — a nonempty list is
collapsed to the single finalized pair `[schema, names[0][1] with the
placeholder token replaced by the destination table name]`, an empty list is
left empty — and iterates exactly the child's rows. -/
theorem claim8_assign {γ κ φ μ ρ : Type} (child : Desc γ κ φ μ) (s t : String)
    (rows : List ρ) :
    (assignDesc child s t).schema_name = some s ∧
    (assignDesc child s t).table_name = t ∧
    (assignDesc child s t).column_definitions = child.column_definitions ∧
    (assignDesc child s t).comment = child.comment ∧
    (assignDesc child s t).meta = child.meta ∧
    (assignDesc child s t).keys.length = child.keys.length ∧
    (assignDesc child s t).foreign_keys.length = child.foreign_keys.length ∧
    (∀ (i : ℕ) (kd : KeyDef κ), child.keys.get? i = some kd →
      ∃ kd', (assignDesc child s t).keys.get? i = some kd' ∧
        kd'.unique_columns = kd.unique_columns ∧ kd'.rest = kd.rest ∧
        ((kd.names = [] ∧ kd'.names = []) ∨
          ∃ cn rest, kd.names = cn :: rest ∧
            kd'.names = [(s, cn.2.replace tnamePlaceholder t)])) ∧
    (∀ (i : ℕ) (fk : FKeyDef φ), child.foreign_keys.get? i = some fk →
      ∃ fk', (assignDesc child s t).foreign_keys.get? i = some fk' ∧
        fk'.foreign_key_columns = fk.foreign_key_columns ∧ fk'.rest = fk.rest ∧
        ((fk.names = [] ∧ fk'.names = []) ∨
          ∃ cn rest, fk.names = cn :: rest ∧
            fk'.names = [(s, cn.2.replace tnamePlaceholder t)])) ∧
    assignRows rows = rows := by
  refine ⟨rfl, rfl, rfl, rfl, rfl, by simp [assignDesc], by simp [assignDesc], ?_, ?_, rfl⟩
  · intro i kd hkd
    refine ⟨{ kd with names := finalizeConstraintName s t kd.names }, ?_, rfl, rfl, ?_⟩
    · have hmap : (assignDesc child s t).keys = child.keys.map
          (fun kd => { kd with names := finalizeConstraintName s t kd.names }) := rfl
      rw [hmap, List.get?_map, hkd]
      rfl
    · cases hn : kd.names with
      | nil => exact Or.inl ⟨rfl, by simp [finalizeConstraintName, hn]⟩
      | cons cn rest =>
        exact Or.inr ⟨cn, rest, rfl, by simp [finalizeConstraintName, hn]⟩
  · intro i fk hfk
    refine ⟨{ fk with names := finalizeConstraintName s t fk.names }, ?_, rfl, rfl, ?_⟩
    · have hmap : (assignDesc child s t).foreign_keys = child.foreign_keys.map
          (fun fk => { fk with names := finalizeConstraintName s t fk.names }) := rfl
      rw [hmap, List.get?_map, hfk]
      rfl
    · cases hn : fk.names with
      | nil => exact Or.inl ⟨rfl, by simp [finalizeConstraintName, hn]⟩
      | cons cn rest =>
        exact Or.inr ⟨cn, rest, rfl, by simp [finalizeConstraintName, hn]⟩

/-- C8 (witness): the finalization at a concrete computed child. -/
theorem claim8_witness :
    c8Child.keys.get? 0 =
      some ⟨[("s0", "{__computed_relation__}_c_key")], ["c"], ()⟩ ∧
    (∃ kd', (assignDesc c8Child "s1" "T").keys.get? 0 = some kd' ∧
      kd'.unique_columns =
        (⟨[("s0", "{__computed_relation__}_c_key")], ["c"], ()⟩ : KeyDef Unit).unique_columns ∧
      kd'.rest = () ∧
      (((⟨[("s0", "{__computed_relation__}_c_key")], ["c"], ()⟩ :
            KeyDef Unit).names = [] ∧ kd'.names = []) ∨
        ∃ cn rest,
          (⟨[("s0", "{__computed_relation__}_c_key")], ["c"], ()⟩ :
            KeyDef Unit).names = cn :: rest ∧
          kd'.names = [("s1", cn.2.replace tnamePlaceholder "T")])) :=
  ⟨rfl, (claim8_assign c8Child "s1" "T" ([] : List Unit)).2.2.2.2.2.2.2.1 0 _ rfl⟩

/-! ## Claim C6: CrossJoin -/

theorem dictKeys_reverse {κ α : Type} (d : List (κ × α)) :
    dictKeys d.reverse = (dictKeys d).reverse := by
  simp [dictKeys]

theorem dictGet_append {κ α : Type} [DecidableEq κ] (a b : List (κ × α)) (k : κ) :
    dictGet (a ++ b) k =
      match dictGet a k with
      | some v => some v
      | none => dictGet b k := by
  induction a with
  | nil => simp [dictGet]
  | cons p a ih =>
    by_cases h : p.1 = k
    · simp [dictGet, h]
    · have h1 : dictGet ((p :: a) ++ b) k = dictGet (a ++ b) k := by
        simp [dictGet, h]
      have h2 : dictGet (p :: a) k = dictGet a k := by
        simp [dictGet, h]
      rw [h1, h2, ih]

theorem dictGet_dictUpdate {κ α : Type} [DecidableEq κ] (d u : List (κ × α)) (k : κ) :
    dictGet (dictUpdate d u) k =
      match dictGet u.reverse k with
      | some v => some v
      | none => dictGet d k := by
  induction u generalizing d with
  | nil => simp [dictUpdate, dictGet]
  | cons p u ih =>
    show dictGet (dictUpdate (dictSet d p.1 p.2) u) k = _
    rw [ih]
    rw [show (p :: u).reverse = u.reverse ++ [p] from List.reverse_cons p u]
    rw [dictGet_append]
    cases hf : dictGet u.reverse k with
    | some v => rfl
    | none =>
      show dictGet (dictSet d p.1 p.2) k = _
      rw [dictGet_dictSet]
      by_cases h : p.1 = k
      · simp [dictGet, h]
      · simp [dictGet, h]

theorem dictGet_update_overwrite {κ α : Type} [DecidableEq κ] (d u v : List (κ × α))
    (h : dictKeys u = dictKeys v) (k : κ) :
    dictGet (dictUpdate (dictUpdate d u) v) k = dictGet (dictUpdate d v) k := by
  rw [dictGet_dictUpdate, dictGet_dictUpdate, dictGet_dictUpdate]
  cases hv : dictGet v.reverse k with
  | some w => rfl
  | none =>
    have hku : dictGet u.reverse k = none := by
      rw [dictGet_eq_none_iff] at hv ⊢
      rw [dictKeys_reverse] at hv ⊢
      rw [h]
      exact hv
    rw [hku]

theorem rename_fold_isSome {α : Type} (row : List (String × α)) :
    ∀ (todo : List (String × String)) (nr : List (String × α)),
      (∀ p ∈ todo, p.2 ∈ dictKeys row) →
      ∃ out, todo.foldlM (renameStep row) nr = some out := by
  intro todo
  induction todo with
  | nil => intro nr _; exact ⟨nr, rfl⟩
  | cons p rest ih =>
    intro nr h1
    have hp2 : p.2 ∈ dictKeys row := h1 p (List.mem_cons_self _ _)
    have hsome : ∃ v, dictGet row p.2 = some v := by
      have hs := (dictGet_isSome_iff row p.2).mpr hp2
      cases hv : dictGet row p.2
      · rw [hv] at hs; simp at hs
      · exact ⟨_, rfl⟩
    rcases hsome with ⟨v, hv⟩
    rcases ih (dictDel (dictSet nr p.1 v) p.2)
      (fun q hq => h1 q (List.mem_cons_of_mem _ hq)) with ⟨out, hout⟩
    refine ⟨out, ?_⟩
    show (renameStep row nr p >>= fun nr' => rest.foldlM (renameStep row) nr') = some out
    simp [renameStep, hv]
    exact hout

theorem rename_row_isSome {α : Type} (row : List (String × α))
    (ren : List (String × String)) (b : Bool)
    (h : ∀ p ∈ ren, p.2 ∈ dictKeys row) :
    ∃ out, rename_row row ren b = some out := by
  by_cases he : ren = []
  · exact ⟨row, by simp [rename_row, he]⟩
  · rcases rename_fold_isSome row ren row h with ⟨out, hout⟩
    exact ⟨out, by rw [rename_row, if_neg he]; exact hout⟩

theorem rename_fold_keys_det {α : Type} (row1 row2 : List (String × α))
    (hrow : dictKeys row1 = dictKeys row2) :
    ∀ (todo : List (String × String)) (nr1 nr2 : List (String × α)),
      dictKeys nr1 = dictKeys nr2 →
      ∀ out1 out2, todo.foldlM (renameStep row1) nr1 = some out1 →
        todo.foldlM (renameStep row2) nr2 = some out2 →
        dictKeys out1 = dictKeys out2 := by
  intro todo
  induction todo with
  | nil =>
    intro nr1 nr2 hk out1 out2 h1 h2
    have e1 : nr1 = out1 := by simpa using h1
    have e2 : nr2 = out2 := by simpa using h2
    rw [← e1, ← e2]
    exact hk
  | cons p rest ih =>
    intro nr1 nr2 hk out1 out2 h1 h2
    rw [show (p :: rest).foldlM (renameStep row1) nr1 =
        (renameStep row1 nr1 p >>= fun nr' => rest.foldlM (renameStep row1) nr')
      from rfl] at h1
    rw [show (p :: rest).foldlM (renameStep row2) nr2 =
        (renameStep row2 nr2 p >>= fun nr' => rest.foldlM (renameStep row2) nr')
      from rfl] at h2
    cases hv1 : dictGet row1 p.2 with
    | none => rw [show renameStep row1 nr1 p = none by simp [renameStep, hv1]] at h1; cases h1
    | some v1 =>
      cases hv2 : dictGet row2 p.2 with
      | none =>
        rw [show renameStep row2 nr2 p = none by simp [renameStep, hv2]] at h2; cases h2
      | some v2 =>
        rw [show renameStep row1 nr1 p = some (dictDel (dictSet nr1 p.1 v1) p.2) by
          simp [renameStep, hv1]] at h1
        rw [show renameStep row2 nr2 p = some (dictDel (dictSet nr2 p.1 v2) p.2) by
          simp [renameStep, hv2]] at h2
        refine ih (dictDel (dictSet nr1 p.1 v1) p.2) (dictDel (dictSet nr2 p.1 v2) p.2)
          ?_ out1 out2 h1 h2
        rw [dictKeys_dictDel, dictKeys_dictDel, dictKeys_dictSet, dictKeys_dictSet, hk]

theorem rename_row_keys_det {α : Type} (row1 row2 : List (String × α))
    (hrow : dictKeys row1 = dictKeys row2) (ren : List (String × String)) (b1 b2 : Bool)
    (out1 out2 : List (String × α)) (h1 : rename_row row1 ren b1 = some out1)
    (h2 : rename_row row2 ren b2 = some out2) : dictKeys out1 = dictKeys out2 := by
  by_cases he : ren = []
  · rw [rename_row, if_pos he] at h1 h2
    cases h1; cases h2
    exact hrow
  · rw [rename_row, if_neg he] at h1 h2
    exact rename_fold_keys_det row1 row2 hrow ren row1 row2 hrow out1 out2 h1 h2

theorem crossRenames_snd_mem {γ : Type} (lN rN : List String) (tn : String)
    (cols : List (ColumnDef γ)) :
    ∀ p ∈ crossRenames lN rN tn cols, p.2 ∈ colNames cols := by
  intro p hp
  unfold crossRenames at hp
  rcases List.mem_map.mp hp with ⟨c, hc, hpc⟩
  rw [← hpc]
  exact List.mem_map_of_mem _ (List.mem_of_mem_filter hc)

theorem crossInner_char {α : Type} (rren : List (String × String)) (rN : List String)
    (holds : ∀ p ∈ rren, p.2 ∈ rN) :
    ∀ (rrs : List (List (String × α))), (∀ rr ∈ rrs, dictKeys rr = rN) →
      ∀ (acc : List (String × α)),
        ∃ out, crossInnerRows rren rrs acc = some out ∧
          List.Forall₂ (fun row rr => dictKeys rr = rN ∧ ∃ r',
            rename_row rr rren false = some r' ∧
            ∀ k, dictGet row k = dictGet (dictUpdate acc r') k) out rrs := by
  intro rrs
  induction rrs with
  | nil =>
    intro _ acc
    exact ⟨[], rfl, List.Forall₂.nil⟩
  | cons rr rest ih =>
    intro hked acc
    have hrr : dictKeys rr = rN := hked rr (List.mem_cons_self _ _)
    obtain ⟨rr', hrr'⟩ :=
      rename_row_isSome rr rren false (fun p hp => by rw [hrr]; exact holds p hp)
    obtain ⟨out, hout, hrel⟩ :=
      ih (fun x hx => hked x (List.mem_cons_of_mem _ hx)) (dictUpdate acc rr')
    refine ⟨dictUpdate acc rr' :: out, ?_, ?_⟩
    · show (do
          let r' ← rename_row rr rren false
          let acc' := dictUpdate acc r'
          let tail ← crossInnerRows rren rest acc'
          pure (acc' :: tail)) = some (dictUpdate acc rr' :: out)
      rw [hrr']
      simp [hout]
    · refine List.Forall₂.cons ⟨hrr, rr', hrr', fun k => rfl⟩ (hrel.imp ?_)
      intro row r2 hx
      rcases hx with ⟨hk2, r2', hr2', hpt⟩
      refine ⟨hk2, r2', hr2', fun k => ?_⟩
      rw [hpt k]
      exact dictGet_update_overwrite acc rr' r2'
        (rename_row_keys_det rr r2 (hrr.trans hk2.symm) rren false false rr' r2' hrr' hr2') k

theorem crossJoinRows_char {α : Type} (lren rren : List (String × String))
    (lN rN : List String)
    (hlolds : ∀ p ∈ lren, p.2 ∈ lN) (hrolds : ∀ p ∈ rren, p.2 ∈ rN) :
    ∀ (lrs rrs : List (List (String × α))),
      (∀ lr ∈ lrs, dictKeys lr = lN) → (∀ rr ∈ rrs, dictKeys rr = rN) →
      ∃ out, crossJoinRows lren rren lrs rrs = some out ∧
        out.length = lrs.length * rrs.length ∧
        List.Forall₂ (fun row p => ∃ l' r',
          rename_row p.1 lren true = some l' ∧ rename_row p.2 rren false = some r' ∧
          ∀ k, dictGet row k = dictGet (dictUpdate l' r') k)
          out (lrs ×ˢ rrs) := by
  intro lrs
  induction lrs with
  | nil =>
    intro rrs _ _
    exact ⟨[], rfl, by simp, by rw [List.nil_product]; exact List.Forall₂.nil⟩
  | cons lr rest ih =>
    intro rrs hl hr
    have hl0 : dictKeys lr = lN := hl lr (List.mem_cons_self _ _)
    obtain ⟨l0, hl0'⟩ :=
      rename_row_isSome lr lren true (fun p hp => by rw [hl0]; exact hlolds p hp)
    obtain ⟨outl, houtl, hrell⟩ := crossInner_char rren rN hrolds rrs hr l0
    obtain ⟨outr, houtr, hlen, hrelr⟩ := ih rrs (fun x hx => hl x (List.mem_cons_of_mem _ hx)) hr
    refine ⟨outl ++ outr, ?_, ?_, ?_⟩
    · show (do
          let l0 ← rename_row lr lren true
          let a ← crossInnerRows rren rrs l0
          let b ← crossJoinRows lren rren rest rrs
          pure (a ++ b)) = some (outl ++ outr)
      rw [hl0']
      show (do
          let a ← crossInnerRows rren rrs l0
          let b ← crossJoinRows lren rren rest rrs
          pure (a ++ b)) = some (outl ++ outr)
      rw [houtl]
      show (do
          let b ← crossJoinRows lren rren rest rrs
          pure (outl ++ b)) = some (outl ++ outr)
      rw [houtr]
      rfl
    · have h1 : outl.length = rrs.length := List.Forall₂.length_eq hrell
      rw [List.length_append, h1, hlen, List.length_cons, Nat.succ_mul]
      omega
    · rw [List.product_cons]
      refine List.rel_append ?_ hrelr
      rw [List.forall₂_map_right_iff]
      refine hrell.imp ?_
      intro row rr hx
      rcases hx with ⟨hk2, r2', hr2', hpt⟩
      exact ⟨l0, r2', hl0', hr2', hpt⟩

theorem colNames_crossRenamedCols {γ : Type} (lN rN : List String) (t : String)
    (cols : List (ColumnDef γ)) :
    colNames (crossRenamedCols lN rN t cols) =
      cols.map (fun c0 =>
        if crossConflict lN rN c0.name then t ++ ":" ++ c0.name else c0.name) := by
  unfold colNames crossRenamedCols
  rw [List.map_map]
  apply List.map_congr_left
  intro a _
  by_cases h : crossConflict lN rN a.name <;> simp [h]

/-- C6 (counterexample): the claim's "does not contain `c`" clause fails when
`c` is itself the composed name of another conflicting column.  With left
table `T` having columns `x` and `T:x` and the right table sharing both
names, the colliding column `c = "T:x"` *is* present in the output
description (as the rename of `x`). -/
theorem claim6_counterexample :
    "T:x" ∈ colNames c6Left.column_definitions ∧
    "T:x" ∈ colNames c6Right.column_definitions ∧
    "T:x" ∈ colNames (crossJoinDesc c6Left c6Right ()).column_definitions := by
  refine ⟨by decide, by decide, by decide⟩

/-- C6 (amended): for `CrossJoin(l, r)` with a column name `c` occurring in
both children, the output description contains `<l>:c` and `<r>:c`, and —
provided `c` is not itself the composed name `<side>:<d>` of some (other)
conflicting column `d` — does not contain `c`; and for conforming rows
(keyed exactly by their description's columns) iterating yields exactly
`len(l) × len(r)` rows, in left-major order, each one (valuewise) the
renamed left row updated with the renamed right row. -/
theorem claim6_amended {γ κ φ μ α : Type} (ldef rdef : Desc γ κ φ μ) (m : μ) (c : String)
    (lrs rrs : List (List (String × α)))
    (hcl : c ∈ colNames ldef.column_definitions)
    (hcr : c ∈ colNames rdef.column_definitions)
    (hcomp : ∀ d ∈ colNames ldef.column_definitions,
      d ∈ colNames rdef.column_definitions →
      ldef.table_name ++ ":" ++ d ≠ c ∧ rdef.table_name ++ ":" ++ d ≠ c)
    (hl : ∀ lr ∈ lrs, dictKeys lr = colNames ldef.column_definitions)
    (hr : ∀ rr ∈ rrs, dictKeys rr = colNames rdef.column_definitions) :
    (ldef.table_name ++ ":" ++ c) ∈ colNames (crossJoinDesc ldef rdef m).column_definitions ∧
    (rdef.table_name ++ ":" ++ c) ∈ colNames (crossJoinDesc ldef rdef m).column_definitions ∧
    c ∉ colNames (crossJoinDesc ldef rdef m).column_definitions ∧
    ∃ out, crossJoinRows
        (crossRenames (colNames ldef.column_definitions) (colNames rdef.column_definitions)
          ldef.table_name ldef.column_definitions)
        (crossRenames (colNames ldef.column_definitions) (colNames rdef.column_definitions)
          rdef.table_name rdef.column_definitions) lrs rrs = some out ∧
      out.length = lrs.length * rrs.length ∧
      List.Forall₂ (fun row p => ∃ l' r',
        rename_row p.1
          (crossRenames (colNames ldef.column_definitions)
            (colNames rdef.column_definitions) ldef.table_name ldef.column_definitions)
          true = some l' ∧
        rename_row p.2
          (crossRenames (colNames ldef.column_definitions)
            (colNames rdef.column_definitions) rdef.table_name rdef.column_definitions)
          false = some r' ∧
        ∀ k, dictGet row k = dictGet (dictUpdate l' r') k) out (lrs ×ˢ rrs) := by
  have hnames : colNames (crossJoinDesc ldef rdef m).column_definitions =
      ldef.column_definitions.map (fun c0 =>
        if crossConflict (colNames ldef.column_definitions)
            (colNames rdef.column_definitions) c0.name
        then ldef.table_name ++ ":" ++ c0.name else c0.name) ++
      rdef.column_definitions.map (fun c0 =>
        if crossConflict (colNames ldef.column_definitions)
            (colNames rdef.column_definitions) c0.name
        then rdef.table_name ++ ":" ++ c0.name else c0.name) := by
    have hsplit : colNames (crossJoinDesc ldef rdef m).column_definitions =
        colNames (crossRenamedCols (colNames ldef.column_definitions)
          (colNames rdef.column_definitions) ldef.table_name ldef.column_definitions) ++
        colNames (crossRenamedCols (colNames ldef.column_definitions)
          (colNames rdef.column_definitions) rdef.table_name rdef.column_definitions) := by
      show colNames (crossRenamedCols _ _ _ _ ++ crossRenamedCols _ _ _ _) = _
      unfold colNames
      exact List.map_append _ _ _
    rw [hsplit, colNames_crossRenamedCols, colNames_crossRenamedCols]
  rcases List.mem_map.mp hcl with ⟨lcol, hlcol, hlname⟩
  rcases List.mem_map.mp hcr with ⟨rcol, hrcol, hrname⟩
  have hconfc : crossConflict (colNames ldef.column_definitions)
      (colNames rdef.column_definitions) c := ⟨hcl, hcr⟩
  refine ⟨?_, ?_, ?_, ?_⟩
  · rw [hnames]
    refine List.mem_append_left _ (List.mem_map.mpr ⟨lcol, hlcol, ?_⟩)
    rw [hlname, if_pos hconfc]
  · rw [hnames]
    refine List.mem_append_right _ (List.mem_map.mpr ⟨rcol, hrcol, ?_⟩)
    rw [hrname, if_pos hconfc]
  · rw [hnames]
    intro hmem
    rcases List.mem_append.mp hmem with hmem | hmem
    · rcases List.mem_map.mp hmem with ⟨col, hcol, heq⟩
      by_cases hcf : crossConflict (colNames ldef.column_definitions)
          (colNames rdef.column_definitions) col.name
      · rw [if_pos hcf] at heq
        exact (hcomp col.name hcf.1 hcf.2).1 heq
      · rw [if_neg hcf] at heq
        exact hcf (heq ▸ hconfc)
    · rcases List.mem_map.mp hmem with ⟨col, hcol, heq⟩
      by_cases hcf : crossConflict (colNames ldef.column_definitions)
          (colNames rdef.column_definitions) col.name
      · rw [if_pos hcf] at heq
        exact (hcomp col.name hcf.1 hcf.2).2 heq
      · rw [if_neg hcf] at heq
        exact hcf (heq ▸ hconfc)
  · exact crossJoinRows_char _ _
      (colNames ldef.column_definitions) (colNames rdef.column_definitions)
      (crossRenames_snd_mem _ _ _ _) (crossRenames_snd_mem _ _ _ _) lrs rrs hl hr

/-- C6 (witness for the amended claim at a concrete instance). -/
theorem claim6_witness :
    ("c" ∈ colNames c6wLeft.column_definitions) ∧
    ((c6wLeft.table_name ++ ":" ++ "c") ∈
        colNames (crossJoinDesc c6wLeft c6wRight ()).column_definitions ∧
      (c6wRight.table_name ++ ":" ++ "c") ∈
        colNames (crossJoinDesc c6wLeft c6wRight ()).column_definitions ∧
      "c" ∉ colNames (crossJoinDesc c6wLeft c6wRight ()).column_definitions ∧
      ∃ out, crossJoinRows
          (crossRenames (colNames c6wLeft.column_definitions)
            (colNames c6wRight.column_definitions) c6wLeft.table_name
            c6wLeft.column_definitions)
          (crossRenames (colNames c6wLeft.column_definitions)
            (colNames c6wRight.column_definitions) c6wRight.table_name
            c6wRight.column_definitions)
          [[("a", (0 : ℕ)), ("c", 1)]] [[("b", (2 : ℕ)), ("c", 3)]] = some out ∧
        out.length = [[("a", (0 : ℕ)), ("c", 1)]].length * [[("b", (2 : ℕ)), ("c", 3)]].length ∧
        List.Forall₂ (fun row p => ∃ l' r',
          rename_row p.1
            (crossRenames (colNames c6wLeft.column_definitions)
              (colNames c6wRight.column_definitions) c6wLeft.table_name
              c6wLeft.column_definitions) true = some l' ∧
          rename_row p.2
            (crossRenames (colNames c6wLeft.column_definitions)
              (colNames c6wRight.column_definitions) c6wRight.table_name
              c6wRight.column_definitions) false = some r' ∧
          ∀ k, dictGet row k = dictGet (dictUpdate l' r') k)
          out ([[("a", (0 : ℕ)), ("c", 1)]] ×ˢ [[("b", (2 : ℕ)), ("c", 3)]])) :=
  ⟨by decide,
   claim6_amended c6wLeft c6wRight () "c" [[("a", (0 : ℕ)), ("c", 1)]]
     [[("b", (2 : ℕ)), ("c", 3)]] (by decide) (by decide) (by decide) (by decide) (by decide)⟩

/-! ## Claim C5: NestedLoopsSimilarityJoin -/

theorem foldl_min_comm (l : List ℚ) : ∀ a b : ℚ, l.foldl min (min a b) = min a (l.foldl min b) := by
  induction l with
  | nil => intro a b; rfl
  | cons x l ih =>
    intro a b
    show l.foldl min (min (min a b) x) = min a (l.foldl min (min b x))
    rw [min_assoc, ih]

theorem foldl_min_le_init (l : List ℚ) : ∀ a : ℚ, l.foldl min a ≤ a := by
  induction l with
  | nil => intro a; exact le_refl a
  | cons x l ih =>
    intro a
    exact le_trans (ih (min a x)) (min_le_left a x)

theorem foldl_min_nonneg (l : List ℚ) : ∀ a : ℚ, (∀ x ∈ l, 0 ≤ x) → 0 ≤ a →
    0 ≤ l.foldl min a := by
  induction l with
  | nil => intro a _ ha; exact ha
  | cons x l ih =>
    intro a h ha
    exact ih (min a x) (fun y hy => h y (List.mem_cons_of_mem _ hy))
      (le_min ha (h x (List.mem_cons_self _ _)))

theorem foldl_min_eq_init (l : List ℚ) : ∀ a : ℚ, (∀ x ∈ l, a ≤ x) → l.foldl min a = a := by
  induction l with
  | nil => intro a _; rfl
  | cons x l ih =>
    intro a h
    show l.foldl min (min a x) = a
    rw [min_eq_left (h x (List.mem_cons_self _ _))]
    exact ih a (fun y hy => h y (List.mem_cons_of_mem _ hy))

theorem innerScan_char {α : Type} (sim : PyVal α → PyVal α → ℚ) (target : PyVal α)
    (r : List (String × PyVal α)) :
    ∀ (ts : List (PyVal α)) (best : ℚ) (bRow : Option (List (String × PyVal α))),
      (∀ t ∈ ts, 0 ≤ sim target t) →
      innerScan sim target r ts best bRow =
        ((ts.map (sim target)).foldl min best,
         if (ts.map (sim target)).foldl min best < best then some r else bRow) := by
  intro ts
  induction ts with
  | nil =>
    intro best bRow _
    simp [innerScan, lt_irrefl]
  | cons t ts ih =>
    intro best bRow h0
    have hrest : ∀ x ∈ ts, 0 ≤ sim target x := fun x hx => h0 x (List.mem_cons_of_mem _ hx)
    show (if sim target t < best then
        (if sim target t = 0 then (sim target t, some r)
         else innerScan sim target r ts (sim target t) (some r))
      else innerScan sim target r ts best bRow) = _
    by_cases hlt : sim target t < best
    · rw [if_pos hlt]
      have hmin : min best (sim target t) = sim target t := min_eq_right (le_of_lt hlt)
      by_cases h00 : sim target t = 0
      · rw [if_pos h00]
        have hfold : ((t :: ts).map (sim target)).foldl min best = sim target t := by
          show (ts.map (sim target)).foldl min (min best (sim target t)) = _
          rw [hmin, h00]
          exact foldl_min_eq_init _ _ (by
            intro x hx
            rcases List.mem_map.mp hx with ⟨t', ht', hx'⟩
            rw [← hx']
            exact hrest t' ht')
        rw [hfold, if_pos hlt]
      · rw [if_neg h00, ih (sim target t) (some r) hrest]
        have hstep : ((t :: ts).map (sim target)).foldl min best =
            (ts.map (sim target)).foldl min (sim target t) := by
          show (ts.map (sim target)).foldl min (min best (sim target t)) = _
          rw [hmin]
        rw [hstep]
        have hle : (ts.map (sim target)).foldl min (sim target t) ≤ sim target t :=
          foldl_min_le_init _ _
        rw [if_pos (lt_of_le_of_lt hle hlt)]
        by_cases hlt2 : (ts.map (sim target)).foldl min (sim target t) < sim target t
        · rw [if_pos hlt2]
        · rw [if_neg hlt2]
    · rw [if_neg hlt, ih best bRow hrest]
      have hmin : min best (sim target t) = best := min_eq_left (le_of_not_lt hlt)
      have hstep : ((t :: ts).map (sim target)).foldl min best =
          (ts.map (sim target)).foldl min best := by
        show (ts.map (sim target)).foldl min (min best (sim target t)) = _
        rw [hmin]
      rw [hstep]

theorem simTerms_some_cons {α : Type} (D S : String) (r : List (String × PyVal α))
    (ts : List (PyVal α)) (h : simTerms D S r = some ts) :
    ∃ t ts', ts = t :: ts' := by
  unfold simTerms at h
  simp only [Option.pure_def, Option.bind_eq_bind, Option.bind_eq_some] at h
  obtain ⟨sv, _, syns, _, dv, _, hpure⟩ := h
  exact ⟨dv, syns, by injection hpure with h'; exact h'.symm⟩

theorem specRowScore_nonneg {α : Type} (sim : PyVal α → PyVal α → ℚ) (target : PyVal α)
    (D S : String) (r : List (String × PyVal α)) (hsim : ∀ x y, 0 ≤ sim x y) :
    0 ≤ specRowScore sim target D S r := by
  unfold specRowScore
  cases h : simTerms D S r with
  | none => norm_num
  | some ts =>
    cases ts with
    | nil => norm_num
    | cons t ts' =>
      exact foldl_min_nonneg _ _ (by
        intro x hx
        rcases List.mem_map.mp hx with ⟨t', _, hx'⟩
        rw [← hx']
        exact hsim target t') (hsim target t)

theorem specRowScore_of_simTerms {α : Type} (sim : PyVal α → PyVal α → ℚ)
    (target : PyVal α) (D S : String) (r : List (String × PyVal α))
    (t : PyVal α) (ts' : List (PyVal α)) (h : simTerms D S r = some (t :: ts')) :
    specRowScore sim target D S r = (ts'.map (sim target)).foldl min (sim target t) := by
  unfold specRowScore
  rw [h]

theorem outerScan_char {α : Type} (sim : PyVal α → PyVal α → ℚ) (target : PyVal α)
    (D S : String) (hsim : ∀ x y, 0 ≤ sim x y) :
    ∀ (rs : List (List (String × PyVal α))) (best : ℚ)
      (bRow : Option (List (String × PyVal α))),
      (∀ r ∈ rs, (simTerms D S r).isSome = true) →
      0 ≤ best →
      outerScan sim target D S rs best bRow =
        some ((rs.map (specRowScore sim target D S)).foldl min best,
          if (rs.map (specRowScore sim target D S)).foldl min best < best
          then rs.find? (fun r => decide (specRowScore sim target D S r =
            (rs.map (specRowScore sim target D S)).foldl min best))
          else bRow) := by
  intro rs
  induction rs with
  | nil =>
    intro best bRow _ _
    simp [outerScan, lt_irrefl]
  | cons r rs ih =>
    intro best bRow hterms hb
    have hrt : (simTerms D S r).isSome = true := hterms r (List.mem_cons_self _ _)
    have hts : ∃ ts, simTerms D S r = some ts := by
      cases h : simTerms D S r
      · rw [h] at hrt; simp at hrt
      · exact ⟨_, rfl⟩
    rcases hts with ⟨ts, hts⟩
    rcases simTerms_some_cons D S r ts hts with ⟨t0, ts', rfl⟩
    have hRS : specRowScore sim target D S r = (ts'.map (sim target)).foldl min (sim target t0) :=
      specRowScore_of_simTerms sim target D S r t0 ts' hts
    have hRSn : 0 ≤ specRowScore sim target D S r := specRowScore_nonneg sim target D S r hsim
    have hinner : innerScan sim target r (t0 :: ts') best bRow =
        (min best (specRowScore sim target D S r),
         if specRowScore sim target D S r < best then some r else bRow) := by
      rw [innerScan_char sim target r (t0 :: ts') best bRow (fun t _ => hsim target t)]
      have hM : ((t0 :: ts').map (sim target)).foldl min best =
          min best (specRowScore sim target D S r) := by
        show (ts'.map (sim target)).foldl min (min best (sim target t0)) = _
        rw [foldl_min_comm, hRS]
      rw [hM]
      have hcond : (min best (specRowScore sim target D S r) < best) ↔
          (specRowScore sim target D S r < best) := by
        constructor
        · intro h
          rcases le_or_lt best (specRowScore sim target D S r) with h' | h'
          · rw [min_eq_left h'] at h
            exact absurd h (lt_irrefl _)
          · exact h'
        · intro h
          rw [min_eq_right (le_of_lt h)]
          exact h
      by_cases hsb : specRowScore sim target D S r < best
      · rw [if_pos hsb, if_pos (hcond.mpr hsb)]
      · rw [if_neg hsb, if_neg (fun h => hsb (hcond.mp h))]
    show (do
        let ts ← simTerms D S r
        let p := innerScan sim target r ts best bRow
        if p.1 = 0 then pure p
        else outerScan sim target D S rs p.1 p.2) = _
    rw [hts]
    show (let p := innerScan sim target r (t0 :: ts') best bRow
        if p.1 = 0 then pure p
        else outerScan sim target D S rs p.1 p.2) = _
    rw [hinner]
    show (if min best (specRowScore sim target D S r) = 0
        then some (min best (specRowScore sim target D S r),
          if specRowScore sim target D S r < best then some r else bRow)
        else outerScan sim target D S rs (min best (specRowScore sim target D S r))
          (if specRowScore sim target D S r < best then some r else bRow)) = _
    have hGdef : ((r :: rs).map (specRowScore sim target D S)).foldl min best =
        (rs.map (specRowScore sim target D S)).foldl min
          (min best (specRowScore sim target D S r)) := rfl
    by_cases hp0 : min best (specRowScore sim target D S r) = 0
    · rw [if_pos hp0]
      have hG0 : ((r :: rs).map (specRowScore sim target D S)).foldl min best = 0 := by
        rw [hGdef, hp0]
        exact foldl_min_eq_init _ _ (by
          intro x hx
          rcases List.mem_map.mp hx with ⟨q, _, hx'⟩
          rw [← hx']
          exact specRowScore_nonneg sim target D S q hsim)
      rw [hG0]
      rcases lt_or_eq_of_le hb with hbpos | hb0
      · have hRS0 : specRowScore sim target D S r = 0 := by
          rcases le_or_lt best (specRowScore sim target D S r) with h' | h'
          · rw [min_eq_left h'] at hp0
            rw [hp0] at hbpos
            exact absurd hbpos (lt_irrefl _)
          · rw [min_eq_right (le_of_lt h')] at hp0
            exact hp0
        rw [if_pos (show specRowScore sim target D S r < best from hRS0 ▸ hbpos),
          if_pos hbpos]
        rw [List.find?_cons_of_pos _ (by simp [hRS0])]
        rw [hp0]
      · rw [← hb0] at hp0 ⊢
        rw [if_neg (not_lt.mpr hRSn), if_neg (lt_irrefl 0), min_eq_left hRSn]
    · rw [if_neg hp0]
      have hb' : 0 ≤ min best (specRowScore sim target D S r) := le_min hb hRSn
      rw [ih (min best (specRowScore sim target D S r))
        (if specRowScore sim target D S r < best then some r else bRow)
        (fun q hq => hterms q (List.mem_cons_of_mem _ hq)) hb']
      rw [hGdef]
      have hG'le : (rs.map (specRowScore sim target D S)).foldl min
          (min best (specRowScore sim target D S r)) ≤
          min best (specRowScore sim target D S r) := foldl_min_le_init _ _
      by_cases hG' : (rs.map (specRowScore sim target D S)).foldl min
          (min best (specRowScore sim target D S r)) <
          min best (specRowScore sim target D S r)
      · rw [if_pos hG']
        have hGb : (rs.map (specRowScore sim target D S)).foldl min
            (min best (specRowScore sim target D S r)) < best :=
          lt_of_lt_of_le hG' (min_le_left _ _)
        rw [if_pos hGb]
        have hhead : ¬ (specRowScore sim target D S r =
            (rs.map (specRowScore sim target D S)).foldl min
              (min best (specRowScore sim target D S r))) := by
          intro he
          have := lt_of_lt_of_le hG' (min_le_right _ _)
          rw [← he] at this
          exact absurd this (lt_irrefl _)
        rw [List.find?_cons_of_neg _ (by simpa using hhead)]
      · rw [if_neg hG']
        have hGeq : (rs.map (specRowScore sim target D S)).foldl min
            (min best (specRowScore sim target D S r)) =
            min best (specRowScore sim target D S r) :=
          le_antisymm hG'le (le_of_not_lt hG')
        rw [hGeq]
        by_cases hRSb : specRowScore sim target D S r < best
        · have hminr : min best (specRowScore sim target D S r) =
              specRowScore sim target D S r := min_eq_right (le_of_lt hRSb)
          rw [hminr, if_pos hRSb]
          rw [List.find?_cons_of_pos _ (by simp), if_pos hRSb]
        · have hminl : min best (specRowScore sim target D S r) = best :=
            min_eq_left (le_of_not_lt hRSb)
          rw [hminl, if_neg (lt_irrefl best), if_neg hRSb]

theorem simJoinYield_eq_spec {α : Type} (sim : PyVal α → PyVal α → ℚ) (Ta D S : String)
    (lren rren : List (String × String)) (rights : List (List (String × PyVal α)))
    (hsim : ∀ x y, 0 ≤ sim x y)
    (hterms : ∀ r ∈ rights, (simTerms D S r).isSome = true)
    (l : List (String × PyVal α)) :
    simJoinYieldForLeft sim Ta D S lren rren rights l =
      specYieldForLeft sim Ta D S lren rren rights l := by
  unfold simJoinYieldForLeft specYieldForLeft
  cases htv : dictGet l Ta with
  | none => rfl
  | some tv =>
    show (do
        let p ← outerScan sim tv D S rights 1 none
        match p.2 with
        | some br =>
          if br.isEmpty then pure []
          else do
            let l' ← rename_row l lren true
            let r' ← rename_row br rren true
            pure [dictUpdate l' r']
        | none => pure []) =
      (match specBestRow sim tv D S rights with
        | some br => do
          let l' ← rename_row l lren true
          let r' ← rename_row br rren true
          pure [dictUpdate l' r']
        | none => pure [])
    rw [outerScan_char sim tv D S hsim rights 1 none hterms (by norm_num)]
    have hBR : (if (rights.map (specRowScore sim tv D S)).foldl min 1 < 1
        then rights.find? (fun r => decide (specRowScore sim tv D S r =
          (rights.map (specRowScore sim tv D S)).foldl min 1))
        else none) = specBestRow sim tv D S rights := rfl
    rw [hBR]
    cases hsb : specBestRow sim tv D S rights with
    | none => rfl
    | some br =>
      have hbrmem : br ∈ rights := by
        unfold specBestRow at hsb
        by_cases hc : specBestScore sim tv D S rights < 1
        · rw [if_pos hc] at hsb
          exact List.mem_of_find?_eq_some hsb
        · rw [if_neg hc] at hsb
          cases hsb
      have hbrne : br.isEmpty = false := by
        cases hbrc : br with
        | nil =>
          have := hterms br hbrmem
          rw [hbrc] at this
          have hnone : simTerms D S ([] : List (String × PyVal α)) = none := rfl
          rw [hnone] at this
          simp at this
        | cons p rest => rfl
      show (if br.isEmpty then (pure [] : Option (List (List (String × PyVal α)))) else do
          let l' ← rename_row l lren true
          let r' ← rename_row br rren true
          pure [dictUpdate l' r']) = (do
          let l' ← rename_row l lren true
          let r' ← rename_row br rren true
          pure [dictUpdate l' r'])
      rw [if_neg (by rw [hbrne]; exact Bool.false_ne_true)]

/-- C5: the similarity join pairs each left row with the right row achieving
the minimum similarity score over the right row's domain value and all its
synonyms — earliest right row on ties (strict-improvement updates), with the
synonym scan and right-row scan early exits on an exact `0.0` match not
changing the outcome for a nonnegative similarity function — and yields the
joined (renamed, merged) row iff that best score is `< 1.0`; a left row with
no sub-`1.0` match produces nothing.  Stated as: the implementation equals
the specification-side join built from `specBestScore`/`specBestRow`, for
every similarity function into `[0, ∞)` and well-formed right rows (domain
and synonyms attributes present, synonyms a list or `None`). -/
theorem claim5_similarity_join {α : Type} (sim : PyVal α → PyVal α → ℚ)
    (Ta D S : String) (lren rren : List (String × String))
    (lefts rights : List (List (String × PyVal α)))
    (hsim : ∀ x y, 0 ≤ sim x y)
    (hterms : ∀ r ∈ rights, (simTerms D S r).isSome = true) :
    simJoinRows sim Ta D S lren rren lefts rights =
      simJoinSpecRows sim Ta D S lren rren lefts rights := by
  induction lefts with
  | nil => rfl
  | cons l ls ih =>
    simp only [simJoinRows, simJoinSpecRows]
    rw [simJoinYield_eq_spec sim Ta D S lren rren rights hsim hterms l, ih]

/-- C5 (witness at a concrete instance: one left row with an exact domain
match on the single right row). -/
theorem claim5_witness :
    (∀ x y : PyVal Unit, 0 ≤ simAtoms x y) ∧
    (∀ r ∈ [[("d", PyVal.atom ()), ("s", (PyVal.pynone : PyVal Unit))]],
      (simTerms "d" "s" r).isSome = true) ∧
    simJoinRows simAtoms "t" "d" "s" [] [] [[("t", PyVal.atom ())]]
        [[("d", PyVal.atom ()), ("s", PyVal.pynone)]] =
      simJoinSpecRows simAtoms "t" "d" "s" [] [] [[("t", PyVal.atom ())]]
        [[("d", PyVal.atom ()), ("s", PyVal.pynone)]] := by
  have h1 : ∀ x y : PyVal Unit, 0 ≤ simAtoms x y := by
    intro x y
    cases x <;> cases y <;> norm_num [simAtoms]
  have h2 : ∀ r ∈ [[("d", PyVal.atom ()), ("s", (PyVal.pynone : PyVal Unit))]],
      (simTerms "d" "s" r).isSome = true := by
    intro r hr
    rw [List.mem_singleton] at hr
    subst hr
    rfl
  exact ⟨h1, h2, claim5_similarity_join simAtoms "t" "d" "s" [] [] _ _ h1 h2⟩

end Chisel
